import Mathlib

/-!
Verification development for scripts/cleanup-duplicates.py of the Brainarr
repository.  Python strings are modelled as lists of characters, Python dicts
as association lists with insert-or-replace-in-place semantics, and a raised
exception (KeyError) as an Option-valued result.  The relevant alphabet of the
script's inputs is ASCII plus the one non-ASCII quote character appearing in
the source, so lowercasing, whitespace and digit tests are modelled on that
range.
-/

abbrev Str := List Char

def strL (s : String) : Str := s.data

/-- Whitespace as tested by Python str.strip and the regex class backslash-s
on the modelled alphabet: space, tab, LF, VT, FF, CR. -/
def pyIsSpace (c : Char) : Bool := c.toNat = 32 || c.toNat = 9 || (10 ≤ c.toNat && c.toNat ≤ 13)

/-- ASCII lowercasing, modelling str.lower on the modelled alphabet. -/
def lowerChar (c : Char) : Char :=
  if 65 ≤ c.toNat && c.toNat ≤ 90 then Char.ofNat (c.toNat + 32) else c

def pyLower (s : Str) : Str := s.map lowerChar

/-- str.strip(): remove leading and trailing whitespace. -/
def pyStrip (s : Str) : Str := ((s.dropWhile pyIsSpace).reverse.dropWhile pyIsSpace).reverse

/-- The character class of the first re.sub in normalize_name.  The raw class
in the source consists of the double quote, the single quote (three times) and
U+201E, so the set is these three characters. -/
def isQuoteChar (c : Char) : Bool := c.toNat = 34 || c.toNat = 39 || c.toNat = 8222

def removeQuotes (s : Str) : Str := s.filter (fun c => !isQuoteChar c)

/-- Helper of collapseWs: the flag records whether the previous character was
whitespace (whose run has already emitted its single space). -/
def collapseWsAux : Bool → Str → Str
  | _, [] => []
  | prevWs, c :: cs =>
    if pyIsSpace c then
      if prevWs then collapseWsAux true cs
      else Char.ofNat 32 :: collapseWsAux true cs
    else c :: collapseWsAux false cs

/-- re.sub of one-or-more whitespace by a single space. -/
def collapseWs (s : Str) : Str := collapseWsAux false s

/-- The final step of normalize_name: drop a leading lowercase article. -/
def removeThe (s : Str) : Str := if s.take 4 = strL "the " then s.drop 4 else s

/-- DuplicateDetector.normalize_name. -/
def normalize_name (name : Str) : Str :=
  if name = [] then [] else removeThe (collapseWs (removeQuotes (pyStrip (pyLower name))))

def pyIsDigit (c : Char) : Bool := 48 ≤ c.toNat && c.toNat ≤ 57

def digitsVal (ds : Str) : Nat := ds.foldl (fun acc c => acc * 10 + (c.toNat - 48)) 0

/-- A Python re `dollar` also matches just before one trailing newline. -/
def stripTrailNl (s : Str) : Str :=
  if s.getLast? = some (Char.ofNat 10) then s.dropLast else s

/-- Matching of DUPLICATE_PATTERN, the anchored regex
base lazily, optional whitespace, literal open paren, digits, close paren.
Returns the first capture group (the lazily minimal base, which excludes the
maximal whitespace run before the open paren) and the numeric value of the
second group.  The dot of the base does not match a newline. -/
def splitNumberedCore (name : Str) : Option (Str × Nat) :=
  match name.reverse with
  | [] => none
  | c :: rest =>
    if c = Char.ofNat 41 then
      let dsr := rest.takeWhile pyIsDigit
      let rest2 := rest.dropWhile pyIsDigit
      if dsr = [] then none
      else
        match rest2 with
        | [] => none
        | d :: preRev =>
          if d = Char.ofNat 40 then
            let baser := preRev.dropWhile pyIsSpace
            if baser = [] then
              match preRev.reverse with
              | [] => none
              | b :: _ =>
                if b = Char.ofNat 10 then none else some ([b], digitsVal dsr.reverse)
            else
              if baser.contains (Char.ofNat 10) then none
              else some (baser.reverse, digitsVal dsr.reverse)
          else none
    else none

def splitNumbered (name : Str) : Option (Str × Nat) := splitNumberedCore (stripTrailNl name)

/-- A Lidarr artist record, with the two fields the script reads.  Absent
fields are modelled by none. -/
structure Artist where
  id : Option Nat
  artistName : Option Str
deriving DecidableEq, Repr

/-- artist.get of the name with empty-string default. -/
def getName (a : Artist) : Str := a.artistName.getD []

/-- The per-duplicate record dict built by find_duplicates. -/
structure DupRec where
  artist : Artist
  original_name : Str
  base_name : Str
deriving DecidableEq, Repr

/-- Python dict lookup on an association list. -/
def dictGet? {α β : Type} [DecidableEq α] : List (α × β) → α → Option β
  | [], _ => none
  | p :: rest, k => if p.1 = k then some p.2 else dictGet? rest k

/-- Python dict assignment: replace in place, or append a fresh key. -/
def dictInsert {α β : Type} [DecidableEq α] : List (α × β) → α → β → List (α × β)
  | [], k, v => [(k, v)]
  | p :: rest, k, v => if p.1 = k then (k, v) :: rest else p :: dictInsert rest k v

/-- defaultdict(list) append. -/
def dictPush {α β : Type} [DecidableEq α] : List (α × List β) → α → β → List (α × List β)
  | [], k, v => [(k, [v])]
  | p :: rest, k, v => if p.1 = k then (p.1, p.2 ++ [v]) :: rest else p :: dictPush rest k v

/-- Python sorted on the key list of the inner dict. -/
def sortNats (l : List Nat) : List Nat := l.insertionSort (fun a b => a ≤ b)

abbrev NumDict := List (Str × List (Nat × DupRec))
abbrev NameGroups := List (Str × List Artist)
abbrev Dups := List (Str × List DupRec)

/-- The body of the first loop of find_duplicates for one artist. -/
def phase1Step (acc : NumDict × NameGroups) (a : Artist) : NumDict × NameGroups :=
  let name := getName a
  if name = [] then acc
  else
    let nd' :=
      match splitNumbered name with
      | none => acc.1
      | some (g1, num) =>
        let baseName := pyStrip g1
        let nb := normalize_name baseName
        let inner := (dictGet? acc.1 nb).getD []
        dictInsert acc.1 nb (dictInsert inner num ⟨a, name, baseName⟩)
    let nrm := normalize_name name
    let ng' := if nrm = [] then acc.2 else dictPush acc.2 nrm a
    (nd', ng')

/-- The first loop of find_duplicates: build numbered_duplicates and
name_groups from the artist list. -/
def phase1 : List Artist → NumDict × NameGroups → NumDict × NameGroups
  | [], acc => acc
  | a :: rest, acc => phase1 rest (phase1Step acc a)

/-- The original-candidate list comprehension of the numbered pass. -/
def originalCandidates (artists : List Artist) (nb : Str) : List Artist :=
  artists.filter (fun a =>
    decide (normalize_name (getName a) = nb) && (splitNumbered (getName a)).isNone)

/-- The duplicate list built for one numbered key: inner-dict values in
ascending key order. -/
def numberedGroupList (inner : List (Nat × DupRec)) : List DupRec :=
  (sortNats (inner.map Prod.fst)).filterMap (fun n => dictGet? inner n)

/-- The body of the numbered-duplicate pass for one key of
numbered_duplicates.  The subscript access of the first candidate's
artistName raises KeyError when the field is absent, modelled by none. -/
def phase2Step (artists : List Artist) (dups : Dups) (e : Str × List (Nat × DupRec)) :
    Option Dups :=
  match originalCandidates artists e.1 with
  | [] => some dups
  | c :: _ =>
    match c.artistName with
    | none => none
    | some keeper => some (dictInsert dups keeper (numberedGroupList e.2))

/-- The numbered-duplicate pass. -/
def phase2 (artists : List Artist) : NumDict → Dups → Option Dups
  | [], dups => some dups
  | e :: rest, dups =>
    match phase2Step artists dups e with
    | none => none
    | some dups' => phase2 artists rest dups'

/-- The already-handled generator of the exact pass: short-circuiting any()
over the first stored duplicate of every current group; empty groups yield no
generator element; the subscript access of the artistName raises on an absent
field. -/
def anyHandled : Dups → Str → Option Bool
  | [], _ => some false
  | (_, grp) :: rest, nrm =>
    match grp with
    | [] => anyHandled rest nrm
    | d :: _ =>
      match d.artist.artistName with
      | none => none
      | some nm => if normalize_name nm = nrm then some true else anyHandled rest nrm

/-- The body of the exact-duplicate pass for one key of name_groups. -/
def phase3Step (dups : Dups) (e : Str × List Artist) : Option Dups :=
  match e.2 with
  | g0 :: g1 :: gs =>
    if (dictGet? dups e.1).isSome then some dups
    else
      match anyHandled dups e.1 with
      | none => none
      | some true => some dups
      | some false =>
        some (dictInsert dups (getName g0)
          ((g1 :: gs).map (fun a => ⟨a, getName a, getName g0⟩)))
  | _ => some dups

/-- The exact-duplicate pass over name_groups. -/
def phase3 : NameGroups → Dups → Option Dups
  | [], dups => some dups
  | e :: rest, dups =>
    match phase3Step dups e with
    | none => none
    | some dups' => phase3 rest dups'

/-- DuplicateDetector.find_duplicates; none models a raised exception. -/
def find_duplicates (artists : List Artist) : Option Dups :=
  let p := phase1 artists ([], [])
  match phase2 artists p.1 [] with
  | none => none
  | some d2 => phase3 p.2 d2

def totalToRemove (dups : Dups) : Nat := (dups.map (fun p => p.2.length)).sum

/-- One deletion attempt of the live branch of cleanup_duplicates; the state
is ((successful, failed), issued delete calls), api gives each call's
success. -/
def cleanupOne (api : Nat → Bool) (st : (Nat × Nat) × List Nat) (d : DupRec) :
    (Nat × Nat) × List Nat :=
  match d.artist.id with
  | none => ((st.1.1, st.1.2 + 1), st.2)
  | some i =>
    if api i then ((st.1.1 + 1, st.1.2), st.2 ++ [i]) else ((st.1.1, st.1.2 + 1), st.2 ++ [i])

/-- cleanup_duplicates, returning the (successful, failed) pair together with
the list of artist ids for which a delete call was issued. -/
def cleanup_duplicates (api : Nat → Bool) (dups : Dups) (dry_run : Bool) :
    (Nat × Nat) × List Nat :=
  if dups = [] then ((0, 0), [])
  else if dry_run then ((totalToRemove dups, 0), [])
  else dups.foldl (fun st p => p.2.foldl (cleanupOne api) st) ((0, 0), [])

/-! Specification-side descriptions used to state the claims. -/

/-- The numbered-suffix data of one artist: the (normalized base, number) key
together with the record the first pass stores for it. -/
def numRec? (a : Artist) : Option ((Str × Nat) × DupRec) :=
  match splitNumbered (getName a) with
  | none => none
  | some (g1, num) => some ((normalize_name (pyStrip g1), num), ⟨a, getName a, pyStrip g1⟩)

/-- The numbered-suffix key of a stored duplicate record, recomputed from its
original name. -/
def recKN (r : DupRec) : Option (Str × Nat) :=
  (splitNumbered r.original_name).map (fun p => (normalize_name (pyStrip p.1), p.2))

/-- The record one artist contributes at the numbered-suffix key (k, n). -/
def numKeyTest (k : Str) (n : Nat) (a : Artist) : Option DupRec :=
  match numRec? a with
  | some (kn, r) => if kn = (k, n) then some r else none
  | none => none

/-- The record of the last artist of the list whose numbered-suffix key is
(k, n); this is what the inner dict of numbered_duplicates holds at n. -/
def lastRec (k : Str) (n : Nat) : List Artist → Option DupRec
  | [] => none
  | a :: rest => (lastRec k n rest) <|> numKeyTest k n a

/-- All numeric suffixes attached to the normalized base key k. -/
def numbersOf (artists : List Artist) (k : Str) : List Nat :=
  artists.filterMap (fun a =>
    match numRec? a with
    | some (kn, _) => if kn.1 = k then some kn.2 else none
    | none => none)

/-- The duplicate list the numbered strategy is specified to produce for key
k: for each numeric suffix in ascending order, the stored record. -/
def expectedDups (artists : List Artist) (k : Str) : List DupRec :=
  (sortNats (numbersOf artists k)).filterMap (fun n => lastRec k n artists)

/-- The entries sharing the normalized name k, in input order. -/
def exactGroup (artists : List Artist) (k : Str) : List Artist :=
  artists.filter (fun a => decide (normalize_name (getName a) = k))

/-- The invariant of the exact pass's accumulated mapping relative to a still
unprocessed normalized key n: no stored group blocks n's guard. -/
def AInv (n : Str) (q : Str × List DupRec) : Prop :=
  q.1 ≠ n ∧ normalize_name q.1 ≠ n ∧
    ∃ r rs, q.2 = r :: rs ∧ ∃ nm, r.artist.artistName = some nm ∧ normalize_name nm ≠ n

/-- A string has no alphabet character the ASCII lowering still moves. -/
def lowerFixed (s : Str) : Prop := ∀ c ∈ s, lowerChar c = c

def headIsSpace : Str → Bool
  | [] => false
  | d :: _ => pyIsSpace d

/-- Whitespace already collapsed: every whitespace character is a single
space not followed by whitespace. -/
def collapsedB : Str → Bool
  | [] => true
  | c :: cs =>
    (!pyIsSpace c || (decide (c = Char.ofNat 32) && !headIsSpace cs)) && collapsedB cs

/-! Concrete inputs used by the witnesses and counterexamples. -/

def mkA (i : Nat) (s : String) : Artist := ⟨some i, some (strL s)⟩

/-- Input where one entry id lands in two duplicate lists. -/
def c1cexArtists : List Artist :=
  [mkA 1 "Radiohead", mkA 2 "Radiohead (2)", mkA 3 "Radiohead (3)", mkA 4 "radiohead  (3)"]

/-- Combined numbered and exact clusters for which the claimed disjointness
does hold. -/
def c1wArtists : List Artist :=
  [mkA 1 "Radiohead", mkA 2 "Radiohead (2)", mkA 3 "Pink Floyd", mkA 4 "pink floyd"]

/-- The three-way collision of C2: a bare original with a numbered variant
and a second bare original on the same normalized key. -/
def c2Artists : List Artist := [mkA 1 "Radiohead", mkA 2 "radiohead", mkA 3 "Radiohead (2)"]

/-- The numbered-cluster instance of C3. -/
def c3Artists : List Artist := [mkA 1 "Radiohead", mkA 2 "Radiohead (2)", mkA 3 "Radiohead (3)"]

/-- C3 counterexample input: key radiohead has a numbered match and original
candidates, yet its group's duplicate list is not the numbered matches. -/
def c3cexArtists : List Artist := [mkA 1 "Radiohead", mkA 2 "radiohead", mkA 3 "Radiohead (2)"]

/-- Numbered variants with no bare original. -/
def c4Artists : List Artist := [mkA 1 "Radiohead (2)", mkA 2 "Radiohead (3)"]

/-- The exact-duplicate instance of C5. -/
def c5Artists : List Artist := [mkA 1 "Pink Floyd", mkA 2 "pink floyd", mkA 3 "Pink  Floyd"]

/-- C5 counterexample input: the cluster of the two entries normalizing to
the string composed of the article and x is dropped because that string
equals the raw keeper name of the previously created group. -/
def c5cexArtists : List Artist := [mkA 1 "the x", mkA 2 "The X", mkA 3 "The The X", mkA 4 "the the x"]

/-- A nameless entry next to a numbered entry whose stripped base is empty:
the candidate subscript raises KeyError. -/
def c8cexArtists : List Artist := [⟨some 1, none⟩, mkA 2 " (2)"]

/-! Association-list dictionary lemmas. -/

theorem dictGet?_isSome_iff {α β : Type} [DecidableEq α] (d : List (α × β)) (k : α) :
    (dictGet? d k).isSome ↔ k ∈ d.map Prod.fst := by
  induction d with
  | nil => simp [dictGet?]
  | cons p rest ih =>
    by_cases h : p.1 = k
    · simp [dictGet?, h]
    · simp [dictGet?, h, ih, Ne.symm h]

theorem mem_of_dictGet? {α β : Type} [DecidableEq α] {d : List (α × β)} {k : α} {v : β}
    (h : dictGet? d k = some v) : (k, v) ∈ d := by
  induction d with
  | nil => simp [dictGet?] at h
  | cons p rest ih =>
    rw [dictGet?] at h
    by_cases he : p.1 = k
    · rw [if_pos he] at h
      cases h
      exact List.mem_cons.mpr (Or.inl (by cases p; simp_all))
    · rw [if_neg he] at h
      exact List.mem_cons.mpr (Or.inr (ih h))

theorem dictGet?_of_mem_nodup {α β : Type} [DecidableEq α] {d : List (α × β)} {k : α} {v : β}
    (hn : (d.map Prod.fst).Nodup) (hm : (k, v) ∈ d) : dictGet? d k = some v := by
  induction d with
  | nil => simp at hm
  | cons p rest ih =>
    simp only [List.map_cons, List.nodup_cons] at hn
    rcases List.mem_cons.mp hm with h | h
    · subst h
      simp [dictGet?]
    · have hk : p.1 ≠ k := by
        intro he
        exact hn.1 (he ▸ (List.mem_map.mpr ⟨(k, v), h, rfl⟩))
      rw [dictGet?, if_neg hk]
      exact ih hn.2 h

theorem dictInsert_get_self {α β : Type} [DecidableEq α] (d : List (α × β)) (k : α) (v : β) :
    dictGet? (dictInsert d k v) k = some v := by
  induction d with
  | nil => simp [dictInsert, dictGet?]
  | cons p rest ih =>
    by_cases h : p.1 = k
    · simp [dictInsert, h, dictGet?]
    · simp [dictInsert, h, dictGet?, ih]

theorem dictInsert_get_ne {α β : Type} [DecidableEq α] (d : List (α × β)) (k k' : α) (v : β)
    (h : k' ≠ k) : dictGet? (dictInsert d k v) k' = dictGet? d k' := by
  induction d with
  | nil => simp [dictInsert, dictGet?, Ne.symm h]
  | cons p rest ih =>
    by_cases hp : p.1 = k
    · simp [dictInsert, hp, dictGet?, Ne.symm h, hp ▸ (Ne.symm h)]
    · by_cases hp' : p.1 = k'
      · simp [dictInsert, hp, dictGet?, hp', h]
      · simp [dictInsert, hp, dictGet?, hp', ih]

theorem mem_dictInsert {α β : Type} [DecidableEq α] {d : List (α × β)} {k : α} {v : β}
    {p : α × β} (h : p ∈ dictInsert d k v) : p = (k, v) ∨ p ∈ d := by
  induction d with
  | nil => simpa [dictInsert] using h
  | cons q rest ih =>
    rw [dictInsert] at h
    split at h
    · rcases List.mem_cons.mp h with h | h
      · exact Or.inl h
      · exact Or.inr (List.mem_cons.mpr (Or.inr h))
    · rcases List.mem_cons.mp h with h | h
      · exact Or.inr (List.mem_cons.mpr (Or.inl h))
      · rcases ih h with h | h
        · exact Or.inl h
        · exact Or.inr (List.mem_cons.mpr (Or.inr h))

theorem keys_dictInsert {α β : Type} [DecidableEq α] (d : List (α × β)) (k : α) (v : β) :
    (dictInsert d k v).map Prod.fst =
      if k ∈ d.map Prod.fst then d.map Prod.fst else d.map Prod.fst ++ [k] := by
  induction d with
  | nil => simp [dictInsert]
  | cons p rest ih =>
    by_cases h : p.1 = k
    · simp [dictInsert, h]
    · simp only [dictInsert, if_neg h, List.map_cons, ih, List.mem_cons]
      by_cases hm : k ∈ rest.map Prod.fst
      · simp [hm, Ne.symm h]
      · simp [hm, Ne.symm h]

theorem nodup_keys_dictInsert {α β : Type} [DecidableEq α] {d : List (α × β)} (k : α) (v : β)
    (hn : (d.map Prod.fst).Nodup) : ((dictInsert d k v).map Prod.fst).Nodup := by
  rw [keys_dictInsert]
  split
  · exact hn
  · rename_i hm
    refine List.Nodup.append hn (List.nodup_singleton k) ?_
    intro a ha hb
    simp at hb
    subst hb
    exact hm ha

theorem dictPush_get_self {α β : Type} [DecidableEq α] (d : List (α × List β)) (k : α) (v : β) :
    dictGet? (dictPush d k v) k = some ((dictGet? d k).getD [] ++ [v]) := by
  induction d with
  | nil => simp [dictPush, dictGet?]
  | cons p rest ih =>
    by_cases h : p.1 = k
    · simp [dictPush, h, dictGet?]
    · simp [dictPush, h, dictGet?, ih]

theorem dictPush_get_ne {α β : Type} [DecidableEq α] (d : List (α × List β)) (k k' : α) (v : β)
    (h : k' ≠ k) : dictGet? (dictPush d k v) k' = dictGet? d k' := by
  induction d with
  | nil => simp [dictPush, dictGet?, Ne.symm h]
  | cons p rest ih =>
    by_cases hp : p.1 = k
    · simp [dictPush, hp, dictGet?, Ne.symm h, hp ▸ (Ne.symm h)]
    · by_cases hp' : p.1 = k'
      · simp [dictPush, hp, dictGet?, hp', h]
      · simp [dictPush, hp, dictGet?, hp', ih]

theorem keys_dictPush {α β : Type} [DecidableEq α] (d : List (α × List β)) (k : α) (v : β) :
    (dictPush d k v).map Prod.fst =
      if k ∈ d.map Prod.fst then d.map Prod.fst else d.map Prod.fst ++ [k] := by
  induction d with
  | nil => simp [dictPush]
  | cons p rest ih =>
    by_cases h : p.1 = k
    · simp [dictPush, h]
    · simp only [dictPush, if_neg h, List.map_cons, ih, List.mem_cons]
      by_cases hm : k ∈ rest.map Prod.fst
      · simp [hm, Ne.symm h]
      · simp [hm, Ne.symm h]

theorem nodup_keys_dictPush {α β : Type} [DecidableEq α] {d : List (α × List β)} (k : α) (v : β)
    (hn : (d.map Prod.fst).Nodup) : ((dictPush d k v).map Prod.fst).Nodup := by
  rw [keys_dictPush]
  split
  · exact hn
  · rename_i hm
    refine List.Nodup.append hn (List.nodup_singleton k) ?_
    intro a ha hb
    simp at hb
    subst hb
    exact hm ha

theorem mem_dictPush {α β : Type} [DecidableEq α] {d : List (α × List β)} {k : α} {v : β}
    {p : α × List β} (h : p ∈ dictPush d k v) : p.1 = k ∨ p ∈ d := by
  induction d with
  | nil =>
    rw [dictPush] at h
    rcases List.mem_cons.mp h with h | h
    · subst h
      exact Or.inl rfl
    · simp at h
  | cons q rest ih =>
    rw [dictPush] at h
    by_cases hq : q.1 = k
    · rw [if_pos hq] at h
      rcases List.mem_cons.mp h with h | h
      · subst h
        exact Or.inl hq
      · exact Or.inr (List.mem_cons.mpr (Or.inr h))
    · rw [if_neg hq] at h
      rcases List.mem_cons.mp h with h | h
      · exact Or.inr (List.mem_cons.mpr (Or.inl h))
      · rcases ih h with h | h
        · exact Or.inl h
        · exact Or.inr (List.mem_cons.mpr (Or.inr h))

/-! Phase-1 characterization. -/

theorem optOrElse_assoc {α : Type} (a b c : Option α) :
    ((a <|> b) <|> c) = (a <|> (b <|> c)) := by
  cases a <;> rfl

theorem optOrElse_none {α : Type} (a : Option α) : (a <|> none) = a := by
  cases a <;> rfl

theorem none_optOrElse {α : Type} (a : Option α) : (none <|> a) = a := rfl

theorem splitNumbered_nil : splitNumbered [] = none := rfl

theorem phase1Step_empty (acc : NumDict × NameGroups) (a : Artist) (h : getName a = []) :
    phase1Step acc a = acc := by
  simp [phase1Step, h]

theorem phase1Step_split_none (acc : NumDict × NameGroups) (a : Artist)
    (h1 : getName a ≠ []) (h2 : splitNumbered (getName a) = none) :
    phase1Step acc a =
      (acc.1,
       if normalize_name (getName a) = [] then acc.2
       else dictPush acc.2 (normalize_name (getName a)) a) := by
  simp [phase1Step, h1, h2]

theorem phase1Step_split_some (acc : NumDict × NameGroups) (a : Artist) (g1 : Str) (num : Nat)
    (h1 : getName a ≠ []) (h2 : splitNumbered (getName a) = some (g1, num)) :
    phase1Step acc a =
      (dictInsert acc.1 (normalize_name (pyStrip g1))
        (dictInsert ((dictGet? acc.1 (normalize_name (pyStrip g1))).getD []) num
          ⟨a, getName a, pyStrip g1⟩),
       if normalize_name (getName a) = [] then acc.2
       else dictPush acc.2 (normalize_name (getName a)) a) := by
  simp [phase1Step, h1, h2]

theorem numRec?_none_of_empty (a : Artist) (h : getName a = []) : numRec? a = none := by
  rw [numRec?, h, splitNumbered_nil]

theorem numRec?_of_split_none (a : Artist) (h : splitNumbered (getName a) = none) :
    numRec? a = none := by
  rw [numRec?, h]

theorem numRec?_of_split_some (a : Artist) (g1 : Str) (num : Nat)
    (h : splitNumbered (getName a) = some (g1, num)) :
    numRec? a = some ((normalize_name (pyStrip g1), num), ⟨a, getName a, pyStrip g1⟩) := by
  rw [numRec?, h]

theorem phase1_nd_get (k : Str) (n : Nat) :
    ∀ (l : List Artist) (acc : NumDict × NameGroups),
      dictGet? ((dictGet? (phase1 l acc).1 k).getD []) n
        = ((lastRec k n l) <|> dictGet? ((dictGet? acc.1 k).getD []) n) := by
  intro l
  induction l with
  | nil =>
    intro acc
    rw [phase1, lastRec, none_optOrElse]
  | cons a rest ih =>
    intro acc
    rw [phase1, ih]
    have hstep : dictGet? ((dictGet? (phase1Step acc a).1 k).getD []) n
        = (numKeyTest k n a <|> dictGet? ((dictGet? acc.1 k).getD []) n) := by
      by_cases h1 : getName a = []
      · rw [phase1Step_empty _ _ h1]
        unfold numKeyTest
        rw [numRec?_none_of_empty _ h1]
        rfl
      · cases hs : splitNumbered (getName a) with
        | none =>
          rw [phase1Step_split_none _ _ h1 hs]
          unfold numKeyTest
          rw [numRec?_of_split_none _ hs]
          rfl
        | some p =>
          obtain ⟨g1, num⟩ := p
          rw [phase1Step_split_some _ _ _ _ h1 hs]
          unfold numKeyTest
          rw [numRec?_of_split_some _ _ _ hs]
          by_cases hk : normalize_name (pyStrip g1) = k
          · subst hk
            by_cases hn : num = n
            · subst hn
              simp [dictInsert_get_self]
            · simp [dictInsert_get_self, dictInsert_get_ne _ _ _ _ (Ne.symm hn), hn]
          · simp [dictInsert_get_ne _ _ _ _ (Ne.symm hk), hk]
    rw [hstep, ← optOrElse_assoc, lastRec]

theorem mem_keys_dictInsert {α β : Type} [DecidableEq α] (d : List (α × β)) (k : α) (v : β)
    (k' : α) : k' ∈ (dictInsert d k v).map Prod.fst ↔ k' ∈ d.map Prod.fst ∨ k' = k := by
  rw [keys_dictInsert]
  by_cases h : k ∈ d.map Prod.fst
  · rw [if_pos h]
    constructor
    · exact Or.inl
    · rintro (hm | he)
      · exact hm
      · exact he ▸ h
  · rw [if_neg h]
    simp

theorem mem_keys_dictPush {α β : Type} [DecidableEq α] (d : List (α × List β)) (k : α) (v : β)
    (k' : α) : k' ∈ (dictPush d k v).map Prod.fst ↔ k' ∈ d.map Prod.fst ∨ k' = k := by
  rw [keys_dictPush]
  by_cases h : k ∈ d.map Prod.fst
  · rw [if_pos h]
    constructor
    · exact Or.inl
    · rintro (hm | he)
      · exact hm
      · exact he ▸ h
  · rw [if_neg h]
    simp

theorem some_optOrElse {α : Type} (a : α) (b : Option α) : (some a <|> b) = some a := rfl

theorem numKeyTest_some {k : Str} {n : Nat} {a : Artist} {r : DupRec} :
    numKeyTest k n a = some r ↔ numRec? a = some ((k, n), r) := by
  unfold numKeyTest
  cases hn : numRec? a with
  | none => simp
  | some p =>
    obtain ⟨kn, r'⟩ := p
    by_cases hkn : kn = (k, n)
    · subst hkn
      simp
    · simp [hkn]

theorem lastRec_some (k : Str) (n : Nat) :
    ∀ (l : List Artist) (r : DupRec), lastRec k n l = some r →
      ∃ a ∈ l, numRec? a = some ((k, n), r) := by
  intro l
  induction l with
  | nil => intro r h; simp [lastRec] at h
  | cons a rest ih =>
    intro r h
    rw [lastRec] at h
    cases hrest : lastRec k n rest with
    | some r' =>
      rw [hrest, some_optOrElse] at h
      injection h with h
      subst h
      obtain ⟨b, hb, hnum⟩ := ih r' hrest
      exact ⟨b, List.mem_cons.mpr (Or.inr hb), hnum⟩
    | none =>
      rw [hrest, none_optOrElse] at h
      exact ⟨a, List.mem_cons.mpr (Or.inl rfl), numKeyTest_some.mp h⟩

theorem lastRec_isSome (k : Str) (n : Nat) :
    ∀ (l : List Artist) (a : Artist) (r : DupRec), a ∈ l →
      numRec? a = some ((k, n), r) → (lastRec k n l).isSome := by
  intro l
  induction l with
  | nil => intro a r h; simp at h
  | cons b rest ih =>
    intro a r hmem hnum
    rw [lastRec]
    rcases List.mem_cons.mp hmem with he | hm
    · cases hlr : lastRec k n rest with
      | some r' => simp
      | none =>
        subst he
        rw [none_optOrElse, numKeyTest_some.mpr hnum]
        rfl
    · have := ih a r hm hnum
      cases hlr : lastRec k n rest with
      | some r' => simp
      | none => rw [hlr] at this; simp at this

theorem normalize_nil : normalize_name [] = [] := rfl

theorem phase1_nd_wf :
    ∀ (l : List Artist) (acc : NumDict × NameGroups),
      (acc.1.map Prod.fst).Nodup → (∀ p ∈ acc.1, (p.2.map Prod.fst).Nodup) →
      ((phase1 l acc).1.map Prod.fst).Nodup ∧
        ∀ p ∈ (phase1 l acc).1, (p.2.map Prod.fst).Nodup := by
  intro l
  induction l with
  | nil =>
    intro acc h1 h2
    rw [phase1]
    exact ⟨h1, h2⟩
  | cons a rest ih =>
    intro acc h1 h2
    rw [phase1]
    by_cases hn : getName a = []
    · rw [phase1Step_empty _ _ hn]
      exact ih acc h1 h2
    · cases hs : splitNumbered (getName a) with
      | none =>
        rw [phase1Step_split_none _ _ hn hs]
        exact ih _ h1 h2
      | some p =>
        obtain ⟨g1, num⟩ := p
        rw [phase1Step_split_some _ _ _ _ hn hs]
        apply ih
        · exact nodup_keys_dictInsert _ _ h1
        · intro q hq
          rcases mem_dictInsert hq with he | hm
          · subst he
            apply nodup_keys_dictInsert
            cases hg : dictGet? acc.1 (normalize_name (pyStrip g1)) with
            | none => simp
            | some i => exact h2 _ (mem_of_dictGet? hg)
          · exact h2 q hm

theorem phase1_ng_get (k : Str) (hk : k ≠ []) :
    ∀ (l : List Artist) (acc : NumDict × NameGroups),
      (dictGet? (phase1 l acc).2 k).getD []
        = (dictGet? acc.2 k).getD []
            ++ l.filter (fun a => decide (normalize_name (getName a) = k)) := by
  intro l
  induction l with
  | nil =>
    intro acc
    rw [phase1]
    simp
  | cons a rest ih =>
    intro acc
    rw [phase1, ih]
    rw [List.filter_cons]
    by_cases h1 : getName a = []
    · rw [phase1Step_empty _ _ h1]
      have hp : decide (normalize_name (getName a) = k) = false := by
        rw [h1, normalize_nil]
        simp [Ne.symm hk]
      rw [hp]
      simp
    · have hng : (phase1Step acc a).2
          = if normalize_name (getName a) = [] then acc.2
            else dictPush acc.2 (normalize_name (getName a)) a := by
        cases hs : splitNumbered (getName a) with
        | none => rw [phase1Step_split_none _ _ h1 hs]
        | some p =>
          obtain ⟨g1, num⟩ := p
          rw [phase1Step_split_some _ _ _ _ h1 hs]
      rw [hng]
      by_cases hnrm : normalize_name (getName a) = []
      · rw [if_pos hnrm]
        have hp : decide (normalize_name (getName a) = k) = false := by
          rw [hnrm]
          simp [Ne.symm hk]
        rw [hp]
        simp
      · rw [if_neg hnrm]
        by_cases hkk : normalize_name (getName a) = k
        · have hp : decide (normalize_name (getName a) = k) = true := by simp [hkk]
          rw [hp, if_pos rfl, hkk, dictPush_get_self]
          simp
        · rw [dictPush_get_ne _ _ _ _ (fun he => hkk he.symm)]
          have hp : decide (normalize_name (getName a) = k) = false := by simp [hkk]
          rw [hp]
          simp

theorem phase1_ng_wf :
    ∀ (l : List Artist) (acc : NumDict × NameGroups),
      (acc.2.map Prod.fst).Nodup → (∀ p ∈ acc.2, p.1 ≠ []) →
      ((phase1 l acc).2.map Prod.fst).Nodup ∧ ∀ p ∈ (phase1 l acc).2, p.1 ≠ [] := by
  intro l
  induction l with
  | nil =>
    intro acc h1 h2
    rw [phase1]
    exact ⟨h1, h2⟩
  | cons a rest ih =>
    intro acc h1 h2
    rw [phase1]
    by_cases hn : getName a = []
    · rw [phase1Step_empty _ _ hn]
      exact ih acc h1 h2
    · have hng : (phase1Step acc a).2
          = if normalize_name (getName a) = [] then acc.2
            else dictPush acc.2 (normalize_name (getName a)) a := by
        cases hs : splitNumbered (getName a) with
        | none => rw [phase1Step_split_none _ _ hn hs]
        | some p =>
          obtain ⟨g1, num⟩ := p
          rw [phase1Step_split_some _ _ _ _ hn hs]
      have hkeys : ((phase1Step acc a).2.map Prod.fst).Nodup := by
        rw [hng]
        by_cases hnrm : normalize_name (getName a) = []
        · rw [if_pos hnrm]
          exact h1
        · rw [if_neg hnrm]
          exact nodup_keys_dictPush _ _ h1
      refine ih _ hkeys ?_
      intro q hq
      rw [hng] at hq
      by_cases hnrm : normalize_name (getName a) = []
      · rw [if_pos hnrm] at hq
        exact h2 q hq
      · rw [if_neg hnrm] at hq
        rcases mem_dictPush hq with he | hm
        · rw [he]
          exact hnrm
        · exact h2 q hm

theorem phase1_nd_mem {k : Str} {n : Nat} {r : DupRec} {l : List Artist} {a : Artist}
    (ha : a ∈ l) (hnum : numRec? a = some ((k, n), r)) :
    k ∈ ((phase1 l ([], [])).1.map Prod.fst) := by
  by_contra hnot
  have hnone : dictGet? (phase1 l (([] : NumDict), ([] : NameGroups))).1 k = none := by
    cases hg : dictGet? (phase1 l (([] : NumDict), ([] : NameGroups))).1 k with
    | none => rfl
    | some i =>
      exact absurd ((dictGet?_isSome_iff _ _).mp (by rw [hg]; rfl)) hnot
  have hchar := phase1_nd_get k n l ([], [])
  rw [hnone] at hchar
  have hsome := lastRec_isSome k n l a r ha hnum
  cases hlr : lastRec k n l with
  | none => rw [hlr] at hsome; simp at hsome
  | some r' =>
    rw [hlr] at hchar
    rw [some_optOrElse] at hchar
    simp [dictGet?] at hchar

theorem phase1_ng_mem {k : Str} (hk : k ≠ []) {l : List Artist} {a : Artist}
    (ha : a ∈ l) (hnm : normalize_name (getName a) = k) :
    k ∈ ((phase1 l ([], [])).2.map Prod.fst) := by
  by_contra hnot
  have hnone : dictGet? (phase1 l (([] : NumDict), ([] : NameGroups))).2 k = none := by
    cases hg : dictGet? (phase1 l (([] : NumDict), ([] : NameGroups))).2 k with
    | none => rfl
    | some i =>
      exact absurd ((dictGet?_isSome_iff _ _).mp (by rw [hg]; rfl)) hnot
  have hchar := phase1_ng_get k hk l ([], [])
  rw [hnone] at hchar
  simp only [Option.getD_none, dictGet?, List.nil_append] at hchar
  have hmemf : a ∈ l.filter (fun b => decide (normalize_name (getName b) = k)) := by
    rw [List.mem_filter]
    exact ⟨ha, by simp [hnm]⟩
  rw [← hchar] at hmemf
  simp at hmemf

/-! Phase-2 lemmas. -/

theorem phase2_nil (artists : List Artist) (dups : Dups) : phase2 artists [] dups = some dups :=
  rfl

theorem phase2_cons (artists : List Artist) (e : Str × List (Nat × DupRec)) (rest : NumDict)
    (dups dups' : Dups) (h : phase2Step artists dups e = some dups') :
    phase2 artists (e :: rest) dups = phase2 artists rest dups' := by
  rw [phase2, h]

theorem phase2_cons_err (artists : List Artist) (e : Str × List (Nat × DupRec)) (rest : NumDict)
    (dups : Dups) (h : phase2Step artists dups e = none) :
    phase2 artists (e :: rest) dups = none := by
  rw [phase2, h]

theorem phase2Step_nocand (artists : List Artist) (dups : Dups) (e : Str × List (Nat × DupRec))
    (h : originalCandidates artists e.1 = []) : phase2Step artists dups e = some dups := by
  unfold phase2Step
  rw [h]

theorem phase2Step_err (artists : List Artist) (dups : Dups) (e : Str × List (Nat × DupRec))
    (c : Artist) (cs : List Artist) (hc : originalCandidates artists e.1 = c :: cs)
    (hn : c.artistName = none) : phase2Step artists dups e = none := by
  unfold phase2Step
  rw [hc]
  show (match c.artistName with
        | none => none
        | some keeper => some (dictInsert dups keeper (numberedGroupList e.2))) = none
  rw [hn]

theorem phase2Step_write (artists : List Artist) (dups : Dups) (e : Str × List (Nat × DupRec))
    (c : Artist) (cs : List Artist) (K : Str) (hc : originalCandidates artists e.1 = c :: cs)
    (hk : c.artistName = some K) :
    phase2Step artists dups e = some (dictInsert dups K (numberedGroupList e.2)) := by
  unfold phase2Step
  rw [hc]
  show (match c.artistName with
        | none => none
        | some keeper => some (dictInsert dups keeper (numberedGroupList e.2)))
      = some (dictInsert dups K (numberedGroupList e.2))
  rw [hk]

theorem phase2_mem (artists : List Artist) :
    ∀ (entries : NumDict) (dups d : Dups), phase2 artists entries dups = some d →
      ∀ q ∈ d, q ∈ dups ∨
        ∃ k inner c cs, (k, inner) ∈ entries ∧ originalCandidates artists k = c :: cs ∧
          c.artistName = some q.1 ∧ q.2 = numberedGroupList inner := by
  intro entries
  induction entries with
  | nil =>
    intro dups d h q hq
    rw [phase2_nil] at h
    cases h
    exact Or.inl hq
  | cons e rest ih =>
    intro dups d h q hq
    obtain ⟨nb, inner⟩ := e
    cases hc : originalCandidates artists nb with
    | nil =>
      rw [phase2_cons _ _ _ _ _ (phase2Step_nocand _ _ _ hc)] at h
      rcases ih dups d h q hq with hin | ⟨k, i, c, cs, hmem, h1, h2, h3⟩
      · exact Or.inl hin
      · exact Or.inr ⟨k, i, c, cs, List.mem_cons.mpr (Or.inr hmem), h1, h2, h3⟩
    | cons c cs =>
      cases hk : c.artistName with
      | none =>
        rw [phase2_cons_err _ _ _ _ (phase2Step_err _ _ _ _ _ hc hk)] at h
        cases h
      | some K =>
        rw [phase2_cons _ _ _ _ _ (phase2Step_write _ _ _ _ _ _ hc hk)] at h
        rcases ih _ d h q hq with hin | ⟨k, i, c', cs', hmem, h1, h2, h3⟩
        · rcases mem_dictInsert hin with he | hm
          · subst he
            exact Or.inr ⟨nb, inner, c, cs, List.mem_cons.mpr (Or.inl rfl), hc, hk, rfl⟩
          · exact Or.inl hm
        · exact Or.inr ⟨k, i, c', cs', List.mem_cons.mpr (Or.inr hmem), h1, h2, h3⟩

theorem phase2_preserve (artists : List Artist) (K : Str) :
    ∀ (entries : NumDict) (dups d : Dups),
      (∀ k inner c cs, (k, inner) ∈ entries → originalCandidates artists k = c :: cs →
        ∀ K', c.artistName = some K' → K' ≠ K) →
      phase2 artists entries dups = some d → dictGet? d K = dictGet? dups K := by
  intro entries
  induction entries with
  | nil =>
    intro dups d hno h
    rw [phase2_nil] at h
    cases h
    rfl
  | cons e rest ih =>
    intro dups d hno h
    obtain ⟨nb, inner⟩ := e
    cases hc : originalCandidates artists nb with
    | nil =>
      rw [phase2_cons _ _ _ _ _ (phase2Step_nocand _ _ _ hc)] at h
      exact ih dups d (fun k i c cs hm => hno k i c cs (List.mem_cons.mpr (Or.inr hm))) h
    | cons c cs =>
      cases hk : c.artistName with
      | none =>
        rw [phase2_cons_err _ _ _ _ (phase2Step_err _ _ _ _ _ hc hk)] at h
        cases h
      | some K' =>
        rw [phase2_cons _ _ _ _ _ (phase2Step_write _ _ _ _ _ _ hc hk)] at h
        have hne : K' ≠ K :=
          hno nb inner c cs (List.mem_cons.mpr (Or.inl rfl)) hc K' hk
        have := ih _ d (fun k i c' cs' hm => hno k i c' cs' (List.mem_cons.mpr (Or.inr hm))) h
        rw [this, dictInsert_get_ne _ _ _ _ (Ne.symm hne)]

theorem phase2_targeted (artists : List Artist) :
    ∀ (entries : NumDict) (k : Str) (inner : List (Nat × DupRec)) (c : Artist)
      (cs : List Artist) (K : Str) (dups d : Dups),
      (entries.map Prod.fst).Nodup →
      (k, inner) ∈ entries →
      originalCandidates artists k = c :: cs →
      c.artistName = some K →
      (∀ k' inner' c' cs', (k', inner') ∈ entries → k' ≠ k →
        originalCandidates artists k' = c' :: cs' → ∀ K', c'.artistName = some K' → K' ≠ K) →
      dictGet? dups K = none →
      phase2 artists entries dups = some d →
      dictGet? d K = some (numberedGroupList inner) := by
  intro entries
  induction entries with
  | nil =>
    intro k inner c cs K dups d _ hmem
    simp at hmem
  | cons e rest ih =>
    intro k inner c cs K dups d hnodup hmem hc hk hother hnone h
    rcases List.mem_cons.mp hmem with he | hm
    · subst he
      rw [phase2_cons _ _ _ _ _ (phase2Step_write _ _ _ _ _ _ hc hk)] at h
      have hpres : dictGet? d K = dictGet? (dictInsert dups K (numberedGroupList inner)) K := by
        apply phase2_preserve artists K rest _ d ?_ h
        intro k' i' c' cs' hm' hc' K' hk'
        have hkne : k' ≠ k := by
          intro he
          subst he
          simp only [List.map_cons, List.nodup_cons] at hnodup
          exact hnodup.1 (List.mem_map.mpr ⟨(k', i'), hm', rfl⟩)
        exact hother k' i' c' cs' (List.mem_cons.mpr (Or.inr hm')) hkne hc' K' hk'
      rw [hpres, dictInsert_get_self]
    · obtain ⟨nb, i⟩ := e
      have hkne : nb ≠ k := by
        intro he
        subst he
        simp only [List.map_cons, List.nodup_cons] at hnodup
        exact hnodup.1 (List.mem_map.mpr ⟨(nb, inner), hm, rfl⟩)
      cases hc' : originalCandidates artists nb with
      | nil =>
        rw [phase2_cons _ _ _ _ _ (phase2Step_nocand _ _ _ hc')] at h
        refine ih k inner c cs K dups d ?_ hm hc hk ?_ hnone h
        · simp only [List.map_cons, List.nodup_cons] at hnodup
          exact hnodup.2
        · intro k' i' c'' cs'' hm' hne hcc K' hkk
          exact hother k' i' c'' cs'' (List.mem_cons.mpr (Or.inr hm')) hne hcc K' hkk
      | cons c0 cs0 =>
        cases hk0 : c0.artistName with
        | none =>
          rw [phase2_cons_err _ _ _ _ (phase2Step_err _ _ _ _ _ hc' hk0)] at h
          cases h
        | some K0 =>
          rw [phase2_cons _ _ _ _ _ (phase2Step_write _ _ _ _ _ _ hc' hk0)] at h
          have hKne : K0 ≠ K :=
            hother nb i c0 cs0 (List.mem_cons.mpr (Or.inl rfl)) hkne hc' K0 hk0
          refine ih k inner c cs K _ d ?_ hm hc hk ?_ ?_ h
          · simp only [List.map_cons, List.nodup_cons] at hnodup
            exact hnodup.2
          · intro k' i' c'' cs'' hm' hne hcc K' hkk
            exact hother k' i' c'' cs'' (List.mem_cons.mpr (Or.inr hm')) hne hcc K' hkk
          · rw [dictInsert_get_ne _ _ _ _ (Ne.symm hKne)]
            exact hnone

/-! Phase-3 lemmas. -/

theorem phase3_nil (dups : Dups) : phase3 [] dups = some dups := rfl

theorem phase3_cons (e : Str × List Artist) (rest : NameGroups) (dups dups' : Dups)
    (h : phase3Step dups e = some dups') : phase3 (e :: rest) dups = phase3 rest dups' := by
  rw [phase3, h]

theorem phase3_cons_err (e : Str × List Artist) (rest : NameGroups) (dups : Dups)
    (h : phase3Step dups e = none) : phase3 (e :: rest) dups = none := by
  rw [phase3, h]

theorem phase3Step_nil (dups : Dups) (e : Str × List Artist) (h : e.2 = []) :
    phase3Step dups e = some dups := by
  unfold phase3Step
  rw [h]

theorem phase3Step_single (dups : Dups) (e : Str × List Artist) (x : Artist) (h : e.2 = [x]) :
    phase3Step dups e = some dups := by
  unfold phase3Step
  rw [h]

theorem phase3Step_skip_mem (dups : Dups) (e : Str × List Artist) (g0 g1 : Artist)
    (gs : List Artist) (h : e.2 = g0 :: g1 :: gs) (hm : (dictGet? dups e.1).isSome) :
    phase3Step dups e = some dups := by
  unfold phase3Step
  rw [h]
  show (if (dictGet? dups e.1).isSome = true then some dups
        else match anyHandled dups e.1 with
             | none => none
             | some true => some dups
             | some false =>
               some (dictInsert dups (getName g0)
                 ((g1 :: gs).map (fun a => ⟨a, getName a, getName g0⟩))))
      = some dups
  rw [if_pos hm]

theorem phase3Step_err (dups : Dups) (e : Str × List Artist) (g0 g1 : Artist)
    (gs : List Artist) (h : e.2 = g0 :: g1 :: gs) (hm : ¬(dictGet? dups e.1).isSome)
    (ha : anyHandled dups e.1 = none) : phase3Step dups e = none := by
  unfold phase3Step
  rw [h]
  show (if (dictGet? dups e.1).isSome = true then some dups
        else match anyHandled dups e.1 with
             | none => none
             | some true => some dups
             | some false =>
               some (dictInsert dups (getName g0)
                 ((g1 :: gs).map (fun a => ⟨a, getName a, getName g0⟩))))
      = none
  rw [if_neg hm, ha]

theorem phase3Step_skip_any (dups : Dups) (e : Str × List Artist) (g0 g1 : Artist)
    (gs : List Artist) (h : e.2 = g0 :: g1 :: gs) (hm : ¬(dictGet? dups e.1).isSome)
    (ha : anyHandled dups e.1 = some true) : phase3Step dups e = some dups := by
  unfold phase3Step
  rw [h]
  show (if (dictGet? dups e.1).isSome = true then some dups
        else match anyHandled dups e.1 with
             | none => none
             | some true => some dups
             | some false =>
               some (dictInsert dups (getName g0)
                 ((g1 :: gs).map (fun a => ⟨a, getName a, getName g0⟩))))
      = some dups
  rw [if_neg hm, ha]

theorem phase3Step_write (dups : Dups) (e : Str × List Artist) (g0 g1 : Artist)
    (gs : List Artist) (h : e.2 = g0 :: g1 :: gs) (hm : ¬(dictGet? dups e.1).isSome)
    (ha : anyHandled dups e.1 = some false) :
    phase3Step dups e = some (dictInsert dups (getName g0)
      ((g1 :: gs).map (fun a => ⟨a, getName a, getName g0⟩))) := by
  unfold phase3Step
  rw [h]
  show (if (dictGet? dups e.1).isSome = true then some dups
        else match anyHandled dups e.1 with
             | none => none
             | some true => some dups
             | some false =>
               some (dictInsert dups (getName g0)
                 ((g1 :: gs).map (fun a => ⟨a, getName a, getName g0⟩))))
      = some (dictInsert dups (getName g0)
          ((g1 :: gs).map (fun a => ⟨a, getName a, getName g0⟩)))
  rw [if_neg hm, ha]

theorem anyHandled_false {dups : Dups} {nrm : Str}
    (h : ∀ q ∈ dups, ∃ r rs, q.2 = r :: rs ∧
      ∃ nm, r.artist.artistName = some nm ∧ normalize_name nm ≠ nrm) :
    anyHandled dups nrm = some false := by
  induction dups with
  | nil => rfl
  | cons q rest ih =>
    obtain ⟨K, grp⟩ := q
    obtain ⟨r, rs, hgrp, nm, hnm, hne⟩ := h (K, grp) (List.mem_cons.mpr (Or.inl rfl))
    simp only at hgrp
    subst hgrp
    show (match r.artist.artistName with
          | none => none
          | some nm => if normalize_name nm = nrm then some true
                       else anyHandled rest nrm) = some false
    rw [hnm]
    show (if normalize_name nm = nrm then some true else anyHandled rest nrm) = some false
    rw [if_neg hne]
    exact ih (fun p hp => h p (List.mem_cons.mpr (Or.inr hp)))

theorem dictGet?_none_of_ne {α β : Type} [DecidableEq α] {d : List (α × β)} {k : α}
    (h : ∀ q ∈ d, q.1 ≠ k) : dictGet? d k = none := by
  induction d with
  | nil => rfl
  | cons p rest ih =>
    rw [dictGet?, if_neg (h p (List.mem_cons.mpr (Or.inl rfl)))]
    exact ih (fun q hq => h q (List.mem_cons.mpr (Or.inr hq)))

theorem phase3_mem :
    ∀ (ng : NameGroups) (dups d : Dups), phase3 ng dups = some d →
      ∀ q ∈ d, q ∈ dups ∨
        ∃ nrm grp g0 g1 gs, (nrm, grp) ∈ ng ∧ grp = g0 :: g1 :: gs ∧ q.1 = getName g0 ∧
          q.2 = (g1 :: gs).map (fun a => ⟨a, getName a, getName g0⟩) := by
  intro ng
  induction ng with
  | nil =>
    intro dups d h q hq
    rw [phase3_nil] at h
    cases h
    exact Or.inl hq
  | cons e rest ih =>
    intro dups d h q hq
    obtain ⟨nrm, grp⟩ := e
    match hgrp : grp with
    | [] =>
      rw [phase3_cons _ _ _ _ (phase3Step_nil _ _ rfl)] at h
      rcases ih dups d h q hq with hin | ⟨n, g, g0, g1, gs, hmem, h1, h2, h3⟩
      · exact Or.inl hin
      · exact Or.inr ⟨n, g, g0, g1, gs, List.mem_cons.mpr (Or.inr hmem), h1, h2, h3⟩
    | [x] =>
      rw [phase3_cons _ _ _ _ (phase3Step_single _ _ x rfl)] at h
      rcases ih dups d h q hq with hin | ⟨n, g, g0, g1, gs, hmem, h1, h2, h3⟩
      · exact Or.inl hin
      · exact Or.inr ⟨n, g, g0, g1, gs, List.mem_cons.mpr (Or.inr hmem), h1, h2, h3⟩
    | g0 :: g1 :: gs =>
      by_cases hm : (dictGet? dups nrm).isSome
      · rw [phase3_cons _ _ _ _ (phase3Step_skip_mem _ _ g0 g1 gs rfl hm)] at h
        rcases ih dups d h q hq with hin | ⟨n, g, g0', g1', gs', hmem, h1, h2, h3⟩
        · exact Or.inl hin
        · exact Or.inr ⟨n, g, g0', g1', gs', List.mem_cons.mpr (Or.inr hmem), h1, h2, h3⟩
      · cases ha : anyHandled dups nrm with
        | none =>
          rw [phase3_cons_err _ _ _ (phase3Step_err _ _ g0 g1 gs rfl hm ha)] at h
          cases h
        | some b =>
          cases b with
          | true =>
            rw [phase3_cons _ _ _ _ (phase3Step_skip_any _ _ g0 g1 gs rfl hm ha)] at h
            rcases ih dups d h q hq with hin | ⟨n, g, g0', g1', gs', hmem, h1, h2, h3⟩
            · exact Or.inl hin
            · exact Or.inr ⟨n, g, g0', g1', gs', List.mem_cons.mpr (Or.inr hmem), h1, h2, h3⟩
          | false =>
            rw [phase3_cons _ _ _ _ (phase3Step_write _ _ g0 g1 gs rfl hm ha)] at h
            rcases ih _ d h q hq with hin | ⟨n, g, g0', g1', gs', hmem, h1, h2, h3⟩
            · rcases mem_dictInsert hin with he | hmm
              · subst he
                exact Or.inr ⟨nrm, g0 :: g1 :: gs, g0, g1, gs,
                  List.mem_cons.mpr (Or.inl rfl), rfl, rfl, rfl⟩
              · exact Or.inl hmm
            · exact Or.inr ⟨n, g, g0', g1', gs', List.mem_cons.mpr (Or.inr hmem), h1, h2, h3⟩

theorem phase3_preserve (K : Str) :
    ∀ (ng : NameGroups) (dups d : Dups),
      (∀ nrm grp g0 g1 gs, (nrm, grp) ∈ ng → grp = g0 :: g1 :: gs → getName g0 ≠ K) →
      phase3 ng dups = some d → dictGet? d K = dictGet? dups K := by
  intro ng
  induction ng with
  | nil =>
    intro dups d hno h
    rw [phase3_nil] at h
    cases h
    rfl
  | cons e rest ih =>
    intro dups d hno h
    obtain ⟨nrm, grp⟩ := e
    match hgrp : grp with
    | [] =>
      rw [phase3_cons _ _ _ _ (phase3Step_nil _ _ rfl)] at h
      exact ih dups d (fun n g g0 g1 gs hm => hno n g g0 g1 gs (List.mem_cons.mpr (Or.inr hm))) h
    | [x] =>
      rw [phase3_cons _ _ _ _ (phase3Step_single _ _ x rfl)] at h
      exact ih dups d (fun n g g0 g1 gs hm => hno n g g0 g1 gs (List.mem_cons.mpr (Or.inr hm))) h
    | g0 :: g1 :: gs =>
      by_cases hm : (dictGet? dups nrm).isSome
      · rw [phase3_cons _ _ _ _ (phase3Step_skip_mem _ _ g0 g1 gs rfl hm)] at h
        exact ih dups d
          (fun n g g0' g1' gs' hmm => hno n g g0' g1' gs' (List.mem_cons.mpr (Or.inr hmm))) h
      · cases ha : anyHandled dups nrm with
        | none =>
          rw [phase3_cons_err _ _ _ (phase3Step_err _ _ g0 g1 gs rfl hm ha)] at h
          cases h
        | some b =>
          cases b with
          | true =>
            rw [phase3_cons _ _ _ _ (phase3Step_skip_any _ _ g0 g1 gs rfl hm ha)] at h
            exact ih dups d
              (fun n g g0' g1' gs' hmm => hno n g g0' g1' gs' (List.mem_cons.mpr (Or.inr hmm))) h
          | false =>
            rw [phase3_cons _ _ _ _ (phase3Step_write _ _ g0 g1 gs rfl hm ha)] at h
            have hne : getName g0 ≠ K :=
              hno nrm (g0 :: g1 :: gs) g0 g1 gs (List.mem_cons.mpr (Or.inl rfl)) rfl
            have := ih _ d
              (fun n g g0' g1' gs' hmm => hno n g g0' g1' gs' (List.mem_cons.mpr (Or.inr hmm))) h
            rw [this, dictInsert_get_ne _ _ _ _ (Ne.symm hne)]

theorem getName_artistName {a : Artist} (h : getName a ≠ []) :
    a.artistName = some (getName a) := by
  cases hn : a.artistName with
  | none =>
    exact absurd (by rw [getName, hn]; rfl) h
  | some s =>
    rw [getName, hn]
    rfl

theorem mem_exactGroup {artists : List Artist} {k : Str} {a : Artist}
    (h : a ∈ exactGroup artists k) : a ∈ artists ∧ normalize_name (getName a) = k := by
  rw [exactGroup, List.mem_filter] at h
  exact ⟨h.1, of_decide_eq_true h.2⟩

theorem phase3_targeted (artists : List Artist) :
    ∀ (ng : NameGroups) (dups d : Dups) (n : Str) (g0 g1 : Artist) (gs : List Artist),
      (ng.map Prod.fst).Nodup →
      (∀ p ∈ ng, p.1 ≠ [] ∧ p.2 = exactGroup artists p.1) →
      (n, g0 :: g1 :: gs) ∈ ng →
      normalize_name n = n →
      (∀ q ∈ dups, AInv n q) →
      phase3 ng dups = some d →
      dictGet? d (getName g0)
        = some ((g1 :: gs).map (fun a => ⟨a, getName a, getName g0⟩)) := by
  intro ng
  induction ng with
  | nil =>
    intro dups d n g0 g1 gs _ _ hmem
    simp at hmem
  | cons e rest ih =>
    intro dups d n g0 g1 gs hnodup hwf hmem hfix hinv h
    rcases List.mem_cons.mp hmem with he | hm
    · -- the current entry is our group
      have hgrp : e.2 = g0 :: g1 :: gs := by rw [← he]
      have hkey : e.1 = n := by rw [← he]
      have hexact : exactGroup artists n = g0 :: g1 :: gs := by
        have h2 := (hwf e (List.mem_cons.mpr (Or.inl rfl))).2
        rw [hgrp, hkey] at h2
        exact h2.symm
      have hg0 : normalize_name (getName g0) = n :=
        (mem_exactGroup (by rw [hexact]; exact List.mem_cons.mpr (Or.inl rfl))).2
      have hnone : dictGet? dups e.1 = none := by
        rw [hkey]
        exact dictGet?_none_of_ne (fun q hq => (hinv q hq).1)
      have hnm : ¬(dictGet? dups e.1).isSome := by rw [hnone]; simp
      have hah : anyHandled dups e.1 = some false := by
        rw [hkey]
        exact anyHandled_false (fun q hq => (hinv q hq).2.2)
      rw [phase3_cons _ _ _ _ (phase3Step_write _ _ g0 g1 gs hgrp hnm hah)] at h
      have hno : ∀ nrm' grp' g0' g1' gs', (nrm', grp') ∈ rest →
          grp' = g0' :: g1' :: gs' → getName g0' ≠ getName g0 := by
        intro nrm' grp' g0' g1' gs' hm' hgrp' heq
        have hwfgrp : grp' = exactGroup artists nrm' :=
          (hwf (nrm', grp') (List.mem_cons.mpr (Or.inr hm'))).2
        have hg0'mem : g0' ∈ exactGroup artists nrm' := by
          rw [← hwfgrp, hgrp']
          exact List.mem_cons.mpr (Or.inl rfl)
        have hg0' : normalize_name (getName g0') = nrm' := (mem_exactGroup hg0'mem).2
        rw [heq, hg0] at hg0'
        simp only [List.map_cons, List.nodup_cons, hkey] at hnodup
        exact hnodup.1 (hg0' ▸ List.mem_map.mpr ⟨(nrm', grp'), hm', rfl⟩)
      have hpres := phase3_preserve (getName g0) rest _ d hno h
      rw [hpres, dictInsert_get_self]
    · -- the current entry is another key
      obtain ⟨nrm', grp'⟩ := e
      have hne' : nrm' ≠ n := by
        intro heq
        subst heq
        simp only [List.map_cons, List.nodup_cons] at hnodup
        exact hnodup.1 (List.mem_map.mpr ⟨(nrm', g0 :: g1 :: gs), hm, rfl⟩)
      have htail : ∀ (dups' : Dups), (∀ q ∈ dups', AInv n q) →
          phase3 rest dups' = some d →
          dictGet? d (getName g0)
            = some ((g1 :: gs).map (fun a => ⟨a, getName a, getName g0⟩)) := by
        intro dups' hinv' h'
        refine ih dups' d n g0 g1 gs ?_ ?_ hm hfix hinv' h'
        · simp only [List.map_cons, List.nodup_cons] at hnodup
          exact hnodup.2
        · intro p hp
          exact hwf p (List.mem_cons.mpr (Or.inr hp))
      match hgrp' : grp' with
      | [] =>
        rw [phase3_cons _ _ _ _ (phase3Step_nil _ _ rfl)] at h
        exact htail dups hinv h
      | [x] =>
        rw [phase3_cons _ _ _ _ (phase3Step_single _ _ x rfl)] at h
        exact htail dups hinv h
      | g0' :: g1' :: gs' =>
        by_cases hms : (dictGet? dups nrm').isSome
        · rw [phase3_cons _ _ _ _ (phase3Step_skip_mem _ _ g0' g1' gs' rfl hms)] at h
          exact htail dups hinv h
        · cases hah : anyHandled dups nrm' with
          | none =>
            rw [phase3_cons_err _ _ _ (phase3Step_err _ _ g0' g1' gs' rfl hms hah)] at h
            cases h
          | some b =>
            cases b with
            | true =>
              rw [phase3_cons _ _ _ _ (phase3Step_skip_any _ _ g0' g1' gs' rfl hms hah)] at h
              exact htail dups hinv h
            | false =>
              rw [phase3_cons _ _ _ _ (phase3Step_write _ _ g0' g1' gs' rfl hms hah)] at h
              refine htail _ ?_ h
              intro q hq
              rcases mem_dictInsert hq with he' | hmm
              · subst he'
                have hgrpeq : exactGroup artists nrm' = g0' :: g1' :: gs' :=
                  ((hwf (nrm', g0' :: g1' :: gs') (List.mem_cons.mpr (Or.inl rfl))).2).symm
                have hnrmne : nrm' ≠ [] :=
                  (hwf (nrm', g0' :: g1' :: gs') (List.mem_cons.mpr (Or.inl rfl))).1
                have hg0' : normalize_name (getName g0') = nrm' :=
                  (mem_exactGroup (by
                    rw [hgrpeq]
                    exact List.mem_cons.mpr (Or.inl rfl))).2
                have hg1' : normalize_name (getName g1') = nrm' :=
                  (mem_exactGroup (by
                    rw [hgrpeq]
                    exact List.mem_cons.mpr (Or.inr (List.mem_cons.mpr (Or.inl rfl))))).2
                have hg1ne : getName g1' ≠ [] := by
                  intro hc
                  rw [hc, normalize_nil] at hg1'
                  exact hnrmne hg1'.symm
                refine ⟨?_, ?_, ?_⟩
                · show getName g0' ≠ n
                  intro hc
                  rw [hc, hfix] at hg0'
                  exact hne' hg0'.symm
                · show normalize_name (getName g0') ≠ n
                  rw [hg0']
                  exact hne'
                · show ∃ r rs,
                      ((g1' :: gs').map
                        (fun a => (⟨a, getName a, getName g0'⟩ : DupRec))) = r :: rs ∧
                      ∃ nm, r.artist.artistName = some nm ∧ normalize_name nm ≠ n
                  refine ⟨⟨g1', getName g1', getName g0'⟩,
                    gs'.map (fun a => ⟨a, getName a, getName g0'⟩), rfl, getName g1', ?_, ?_⟩
                  · exact getName_artistName hg1ne
                  · rw [hg1']
                    exact hne'
              · exact hinv q hmm

/-! Bridges from the phase-1 output to the specification-side descriptions. -/

theorem ngFinal_wf (artists : List Artist) :
    ((phase1 artists ([], [])).2.map Prod.fst).Nodup ∧
    ∀ p ∈ (phase1 artists ([], [])).2, p.1 ≠ [] ∧ p.2 = exactGroup artists p.1 := by
  have hwf := phase1_ng_wf artists ([], []) (by simp) (by simp)
  refine ⟨hwf.1, ?_⟩
  intro p hp
  have hne := hwf.2 p hp
  refine ⟨hne, ?_⟩
  have hget : dictGet? (phase1 artists ([], [])).2 p.1 = some p.2 :=
    dictGet?_of_mem_nodup hwf.1 (by rw [Prod.mk.eta]; exact hp)
  have hch := phase1_ng_get p.1 hne artists ([], [])
  rw [hget] at hch
  rw [show (dictGet? (([] : NumDict), ([] : NameGroups)).2 p.1) = none from rfl] at hch
  simp only [Option.getD_some, Option.getD_none, List.nil_append] at hch
  exact hch

theorem ndFinal_wf (artists : List Artist) :
    ((phase1 artists ([], [])).1.map Prod.fst).Nodup ∧
    ∀ p ∈ (phase1 artists ([], [])).1, (p.2.map Prod.fst).Nodup :=
  phase1_nd_wf artists ([], []) (by simp) (by simp)

theorem ndFinal_get (artists : List Artist) :
    ∀ p ∈ (phase1 artists ([], [])).1, ∀ n, dictGet? p.2 n = lastRec p.1 n artists := by
  intro p hp n
  have hwf := ndFinal_wf artists
  have hget : dictGet? (phase1 artists ([], [])).1 p.1 = some p.2 :=
    dictGet?_of_mem_nodup hwf.1 (by rw [Prod.mk.eta]; exact hp)
  have hch := phase1_nd_get p.1 n artists ([], [])
  rw [hget] at hch
  rw [show (dictGet? (([] : NumDict), ([] : NameGroups)).1 p.1) = none from rfl] at hch
  simp only [Option.getD_some, Option.getD_none] at hch
  rw [show (dictGet? ([] : List (Nat × DupRec)) n) = none from rfl, optOrElse_none] at hch
  exact hch

theorem ndFinal_rec (artists : List Artist) :
    ∀ p ∈ (phase1 artists ([], [])).1, ∀ q ∈ p.2,
      ∃ a ∈ artists, numRec? a = some ((p.1, q.1), q.2) := by
  intro p hp q hq
  have hwf := ndFinal_wf artists
  have hget : dictGet? p.2 q.1 = some q.2 :=
    dictGet?_of_mem_nodup (hwf.2 p hp) (by rw [Prod.mk.eta]; exact hq)
  rw [ndFinal_get artists p hp q.1] at hget
  exact lastRec_some _ _ _ _ hget

theorem mem_numberedGroupList {inner : List (Nat × DupRec)} {r : DupRec}
    (h : r ∈ numberedGroupList inner) : ∃ n, dictGet? inner n = some r := by
  rw [numberedGroupList] at h
  obtain ⟨n, _, he⟩ := List.mem_filterMap.mp h
  exact ⟨n, he⟩

/-! Sorting lemmas. -/

theorem sortNats_sorted (l : List Nat) : List.Sorted (fun a b => a ≤ b) (sortNats l) := by
  haveI : IsTotal Nat (fun a b => a ≤ b) := ⟨fun a b => Nat.le_total a b⟩
  haveI : IsTrans Nat (fun a b => a ≤ b) := ⟨fun a b c => Nat.le_trans⟩
  exact List.sorted_insertionSort _ l

theorem sortNats_perm (l : List Nat) : List.Perm (sortNats l) l :=
  List.perm_insertionSort _ l

theorem sortNats_eq_of_perm {l1 l2 : List Nat} (h : List.Perm l1 l2) :
    sortNats l1 = sortNats l2 := by
  haveI : IsAntisymm Nat (fun a b => a ≤ b) := ⟨fun a b => Nat.le_antisymm⟩
  exact List.eq_of_perm_of_sorted
    ((sortNats_perm l1).trans (h.trans (sortNats_perm l2).symm))
    (sortNats_sorted l1) (sortNats_sorted l2)

/-! Equation lemmas for find_duplicates. -/

theorem find_duplicates_eq (artists : List Artist) (d2 : Dups)
    (h : phase2 artists (phase1 artists ([], [])).1 [] = some d2) :
    find_duplicates artists = phase3 (phase1 artists ([], [])).2 d2 := by
  show (match phase2 artists (phase1 artists ([], [])).1 [] with
        | none => none
        | some d2 => phase3 (phase1 artists ([], [])).2 d2)
      = phase3 (phase1 artists ([], [])).2 d2
  rw [h]

theorem find_duplicates_err (artists : List Artist)
    (h : phase2 artists (phase1 artists ([], [])).1 [] = none) :
    find_duplicates artists = none := by
  show (match phase2 artists (phase1 artists ([], [])).1 [] with
        | none => none
        | some d2 => phase3 (phase1 artists ([], [])).2 d2)
      = none
  rw [h]

/-! Small helper lemmas about the specification-side functions. -/

theorem getName_of_artistName {a : Artist} {s : Str} (h : a.artistName = some s) :
    getName a = s := by
  rw [getName, h]
  rfl

theorem numRec?_inv {a : Artist} {k : Str} {n : Nat} {r : DupRec}
    (h : numRec? a = some ((k, n), r)) :
    r.artist = a ∧ r.original_name = getName a ∧
      ∃ g1, splitNumbered (getName a) = some (g1, n) ∧ normalize_name (pyStrip g1) = k ∧
        r.base_name = pyStrip g1 := by
  rw [numRec?] at h
  cases hs : splitNumbered (getName a) with
  | none => rw [hs] at h; cases h
  | some p =>
    obtain ⟨g1, num⟩ := p
    rw [hs] at h
    injection h with h
    rw [Prod.mk.injEq, Prod.mk.injEq] at h
    obtain ⟨⟨hk, hn⟩, hr⟩ := h
    subst hn
    subst hr
    exact ⟨rfl, rfl, g1, rfl, hk, rfl⟩

theorem recKN_of_numRec? {a : Artist} {k : Str} {n : Nat} {r : DupRec}
    (h : numRec? a = some ((k, n), r)) : recKN r = some (k, n) := by
  obtain ⟨h1, h2, g1, h3, h4, _⟩ := numRec?_inv h
  rw [recKN, h2, h3]
  simp [h4]

theorem numbersOf_mem_iff {artists : List Artist} {k : Str} {n : Nat} :
    n ∈ numbersOf artists k ↔ ∃ a ∈ artists, ∃ r, numRec? a = some ((k, n), r) := by
  rw [numbersOf, List.mem_filterMap]
  constructor
  · rintro ⟨a, ha, hf⟩
    cases hnum : numRec? a with
    | none =>
      simp only [hnum] at hf
      exact Option.noConfusion hf
    | some p =>
      obtain ⟨kn, r⟩ := p
      obtain ⟨k1, n1⟩ := kn
      simp only [hnum] at hf
      by_cases hk : k1 = k
      · rw [if_pos hk] at hf
        injection hf with hf
        subst hk
        subst hf
        exact ⟨a, ha, r, hnum⟩
      · rw [if_neg hk] at hf
        cases hf
  · rintro ⟨a, ha, r, hnum⟩
    refine ⟨a, ha, ?_⟩
    rw [hnum]
    simp

theorem id_inj {artists : List Artist} (hid : (artists.filterMap Artist.id).Nodup) :
    ∀ a ∈ artists, ∀ b ∈ artists, ∀ i : Nat,
      Artist.id a = some i → Artist.id b = some i → a = b := by
  induction artists with
  | nil => intro a ha; simp at ha
  | cons c l ih =>
    intro a ha b hb i hai hbi
    rw [List.filterMap_cons] at hid
    rcases List.mem_cons.mp ha with hea | hma
    · rcases List.mem_cons.mp hb with heb | hmb
      · rw [hea, heb]
      · subst hea
        rw [hai] at hid
        simp only [List.nodup_cons] at hid
        exact absurd (List.mem_filterMap.mpr ⟨b, hmb, hbi⟩) hid.1
    · rcases List.mem_cons.mp hb with heb | hmb
      · subst heb
        rw [hbi] at hid
        simp only [List.nodup_cons] at hid
        exact absurd (List.mem_filterMap.mpr ⟨a, hma, hai⟩) hid.1
      · cases hc : Artist.id c with
        | none =>
          rw [hc] at hid
          exact ih hid a hma b hmb i hai hbi
        | some j =>
          rw [hc] at hid
          simp only [List.nodup_cons] at hid
          exact ih hid.2 a hma b hmb i hai hbi

theorem originalCandidates_eq (artists : List Artist) (k : Str) :
    originalCandidates artists k
      = (exactGroup artists k).filter (fun a => (splitNumbered (getName a)).isNone) := by
  rw [originalCandidates, exactGroup, List.filter_filter]
  apply List.filter_congr
  intro a _
  exact Bool.and_comm _ _

theorem phase1_nd_id :
    ∀ (l : List Artist) (acc : NumDict × NameGroups),
      (∀ a ∈ l, splitNumbered (getName a) = none) → (phase1 l acc).1 = acc.1 := by
  intro l
  induction l with
  | nil => intro acc _; rw [phase1]
  | cons a rest ih =>
    intro acc hall
    rw [phase1]
    have hs := hall a (List.mem_cons.mpr (Or.inl rfl))
    have hstep : (phase1Step acc a).1 = acc.1 := by
      by_cases h1 : getName a = []
      · rw [phase1Step_empty _ _ h1]
      · rw [phase1Step_split_none _ _ h1 hs]
    have := ih (phase1Step acc a) (fun b hb => hall b (List.mem_cons.mpr (Or.inr hb)))
    rw [this, hstep]

theorem phase1_append :
    ∀ (xs ys : List Artist) (acc : NumDict × NameGroups),
      phase1 (xs ++ ys) acc = phase1 ys (phase1 xs acc) := by
  intro xs
  induction xs with
  | nil => intro ys acc; rfl
  | cons a rest ih =>
    intro ys acc
    rw [List.cons_append, phase1, phase1, ih]

theorem phase1_const_of_empty :
    ∀ (l : List Artist) (acc : NumDict × NameGroups),
      (∀ a ∈ l, getName a = []) → phase1 l acc = acc := by
  intro l
  induction l with
  | nil => intro acc _; rw [phase1]
  | cons a rest ih =>
    intro acc hall
    rw [phase1, phase1Step_empty _ _ (hall a (List.mem_cons.mpr (Or.inl rfl)))]
    exact ih acc (fun b hb => hall b (List.mem_cons.mpr (Or.inr hb)))

/-! Claim theorems. -/

/-- C7: normalize_name applies, in order, lowercasing with trimming, quote
stripping, whitespace collapsing, and removal of a leading article prefix; in
particular the normalized forms of "The Beatles" and "beatles" agree. -/
theorem brainarr_c7 :
    (∀ name : Str, normalize_name name
        = removeThe (collapseWs (removeQuotes (pyStrip (pyLower name))))) ∧
      normalize_name (strL "The Beatles") = normalize_name (strL "beatles") := by
  constructor
  · intro name
    by_cases h : name = []
    · subst h
      rfl
    · rw [normalize_name, if_neg h]
  · decide

/-- Witness for C7 at a concrete input. -/
theorem brainarr_c7_witness :
    normalize_name (strL "The Beatles")
      = removeThe (collapseWs (removeQuotes (pyStrip (pyLower (strL "The Beatles"))))) :=
  brainarr_c7.1 (strL "The Beatles")

/-- C9: with dry_run set, cleanup_duplicates issues no delete call and
returns the total number of duplicates paired with zero failures, for every
duplicates mapping and every behaviour of the delete API. -/
theorem brainarr_c9 :
    ∀ (api : Nat → Bool) (dups : Dups),
      cleanup_duplicates api dups true = ((totalToRemove dups, 0), []) := by
  intro api dups
  by_cases h : dups = []
  · subst h
    rfl
  · simp [cleanup_duplicates, h]

/-- Witness for C9 at a concrete mapping. -/
theorem brainarr_c9_witness :
    cleanup_duplicates (fun _ => true)
        [(strL "Radiohead",
          [⟨mkA 2 "Radiohead (2)", strL "Radiohead (2)", strL "Radiohead"⟩])] true
      = ((1, 0), []) :=
  (brainarr_c9 (fun _ => true)
    [(strL "Radiohead",
      [⟨mkA 2 "Radiohead (2)", strL "Radiohead (2)", strL "Radiohead"⟩])]).trans (by decide)

/-- C2: on a key owning both a bare original with a numbered variant and a
second bare original, the already-handled check of the exact pass compares
against the first stored duplicate's normalized name, so the key is not
skipped: the exact pass re-creates the group under the same keeper raw name,
replacing the numbered duplicate list, and the numbered variant (id 3) is
absent from the returned mapping. -/
theorem brainarr_c2 :
    find_duplicates c2Artists
        = some [(strL "Radiohead",
            [⟨mkA 2 "radiohead", strL "radiohead", strL "Radiohead"⟩])] ∧
      ((find_duplicates c2Artists).getD []).all
        (fun q => q.2.all (fun r => !(r.artist.id == some 3))) = true := by
  constructor
  · decide
  · decide

/-- C4: a normalized base key without an original candidate contributes no
group in the numbered pass (its records appear in no written duplicate list),
and the two-numbered-variants instance returns the empty mapping. -/
theorem brainarr_c4 :
    (∀ (artists : List Artist) (k : Str) (d2 : Dups),
       originalCandidates artists k = [] →
       phase2 artists (phase1 artists ([], [])).1 [] = some d2 →
       ∀ q ∈ d2, ∀ r ∈ q.2, ∀ n : Nat, recKN r ≠ some (k, n)) ∧
      find_duplicates c4Artists = some [] := by
  constructor
  · intro artists k d2 hcand h q hq r hr n hrec
    rcases phase2_mem artists _ [] d2 h q hq with hin | ⟨k', inner, c, cs, hmem, hc, _, hlist⟩
    · simp at hin
    · rw [hlist] at hr
      obtain ⟨m, hget⟩ := mem_numberedGroupList hr
      obtain ⟨a, ha, hnum⟩ :=
        ndFinal_rec artists (k', inner) hmem (m, r) (mem_of_dictGet? hget)
      have hrk := recKN_of_numRec? hnum
      rw [hrec] at hrk
      injection hrk with hrk
      have hkk : k' = k := (Prod.mk.injEq .. ▸ hrk.symm).1
      rw [hkk, hcand] at hc
      cases hc
  · decide

/-- Witness for C4 at the concrete input. -/
theorem brainarr_c4_witness :
    originalCandidates c4Artists (strL "radiohead") = [] ∧
    (∀ q ∈ ([] : Dups), ∀ r ∈ q.2, ∀ n : Nat, recKN r ≠ some (strL "radiohead", n)) ∧
    find_duplicates c4Artists = some [] :=
  ⟨by decide, brainarr_c4.1 c4Artists (strL "radiohead") [] (by decide) (by decide),
    brainarr_c4.2⟩

/-- C8 counterexample: find_duplicates can raise for malformed input — with
a nameless entry next to a numbered entry whose stripped base is empty, the
nameless entry is selected as original candidate for the empty normalized
base key, and the direct artistName subscript raises KeyError (modelled as
none). -/
theorem brainarr_c8_cex : find_duplicates c8cexArtists = none := by decide

/-- C8 amended: an entry with an absent or empty name contributes to neither
grouping structure of the first pass; with zero entries or entries carrying
empty names only, the result mapping is empty.  However find_duplicates is
not exception-free on all malformed inputs (see the counterexample). -/
theorem brainarr_c8 :
    (∀ (pre post : List Artist) (a : Artist) (acc : NumDict × NameGroups),
       getName a = [] → phase1 (pre ++ a :: post) acc = phase1 (pre ++ post) acc) ∧
    (∀ artists : List Artist, (∀ a ∈ artists, getName a = []) →
       find_duplicates artists = some []) ∧
    find_duplicates [] = some [] := by
  refine ⟨?_, ?_, rfl⟩
  · intro pre post a acc hempty
    rw [phase1_append, phase1_append, phase1, phase1Step_empty _ _ hempty]
  · intro artists hall
    have h1 : phase1 artists ([], []) = ([], []) := phase1_const_of_empty artists _ hall
    have h2 : phase2 artists (phase1 artists ([], [])).1 [] = some [] := by
      rw [h1]
      rfl
    rw [find_duplicates_eq _ _ h2, h1]
    rfl

/-- Witness for C8 at concrete inputs. -/
theorem brainarr_c8_witness :
    getName (⟨some 9, none⟩ : Artist) = [] ∧
    phase1 ([mkA 1 "Radiohead"] ++ (⟨some 9, none⟩ : Artist) :: [mkA 2 "Radiohead (2)"]) ([], [])
      = phase1 ([mkA 1 "Radiohead"] ++ [mkA 2 "Radiohead (2)"]) ([], []) ∧
    find_duplicates [(⟨some 5, some []⟩ : Artist), (⟨none, none⟩ : Artist)] = some [] :=
  ⟨by decide,
    brainarr_c8.1 [mkA 1 "Radiohead"] [mkA 2 "Radiohead (2)"] ⟨some 9, none⟩ ([], [])
      (by decide),
    brainarr_c8.2.1 [⟨some 5, some []⟩, ⟨none, none⟩] (by decide)⟩

/-- C3 counterexample: on the three-way collision input the key radiohead has
a numbered match and original candidates, but the duplicates stored under the
keeper raw name are not the numbered matches in suffix order — the exact pass
overwrote them with the second bare original. -/
theorem brainarr_c3_cex :
    numbersOf c3cexArtists (strL "radiohead") = [2] ∧
    originalCandidates c3cexArtists (strL "radiohead") = [mkA 1 "Radiohead", mkA 2 "radiohead"] ∧
    expectedDups c3cexArtists (strL "radiohead")
      = [⟨mkA 3 "Radiohead (2)", strL "Radiohead (2)", strL "Radiohead"⟩] ∧
    dictGet? ((find_duplicates c3cexArtists).getD []) (strL "Radiohead")
      = some [⟨mkA 2 "radiohead", strL "radiohead", strL "Radiohead"⟩] := by
  refine ⟨by decide, by decide, by decide, by decide⟩

/-- C3 amended: for a normalized base key k with numbered matches, provided
each numeric suffix occurs at most once, exactly one entry normalizes to k
and that entry does not itself match the numbered pattern, and k is
nonempty, find_duplicates maps that entry's raw name to the stored numbered
records in ascending suffix order. -/
theorem brainarr_c3 (artists : List Artist) (k : Str) (c : Artist)
    (hk : k ≠ [])
    (hone : exactGroup artists k = [c])
    (hcnum : splitNumbered (getName c) = none)
    (hmatch : ∃ a ∈ artists, ∃ n r, numRec? a = some ((k, n), r))
    (hnodupnum : (numbersOf artists k).Nodup) :
    ∀ d, find_duplicates artists = some d →
      dictGet? d (getName c) = some (expectedDups artists k) := by
  intro d hfd
  have hcand : originalCandidates artists k = [c] := by
    rw [originalCandidates_eq, hone]
    simp [hcnum]
  have hcmem : c ∈ exactGroup artists k := by
    rw [hone]
    exact List.mem_cons.mpr (Or.inl rfl)
  have hnc : normalize_name (getName c) = k := (mem_exactGroup hcmem).2
  have hgne : getName c ≠ [] := by
    intro hcc
    rw [hcc, normalize_nil] at hnc
    exact hk hnc.symm
  have hart : c.artistName = some (getName c) := getName_artistName hgne
  obtain ⟨a0, ha0, n0, r0, hnum0⟩ := hmatch
  have hkmem := phase1_nd_mem ha0 hnum0
  cases hgi : dictGet? (phase1 artists ([], [])).1 k with
  | none =>
    have hsome := (dictGet?_isSome_iff _ k).mpr hkmem
    rw [hgi] at hsome
    simp at hsome
  | some inner =>
  have hmemnd : (k, inner) ∈ (phase1 artists ([], [])).1 := mem_of_dictGet? hgi
  cases h2 : phase2 artists (phase1 artists ([], [])).1 [] with
  | none =>
    rw [find_duplicates_err _ h2] at hfd
    cases hfd
  | some d2 =>
  rw [find_duplicates_eq _ _ h2] at hfd
  have hd2 : dictGet? d2 (getName c) = some (numberedGroupList inner) := by
    refine phase2_targeted artists _ k inner c [] (getName c) [] d2
      (ndFinal_wf artists).1 hmemnd hcand hart ?_ rfl h2
    intro k' inner' c' cs' hmem' hne' hc' K' hk'
    have hc'mem : c' ∈ originalCandidates artists k' := by
      rw [hc']
      exact List.mem_cons.mpr (Or.inl rfl)
    have hc'exact : c' ∈ exactGroup artists k' := by
      rw [originalCandidates_eq] at hc'mem
      exact List.mem_of_mem_filter hc'mem
    have hnk' : normalize_name (getName c') = k' := (mem_exactGroup hc'exact).2
    intro heq
    have hKk : normalize_name K' = k' := by
      rw [← getName_of_artistName hk']
      exact hnk'
    rw [heq, hnc] at hKk
    exact hne' hKk.symm
  have hno3 : ∀ nrm grp g0 g1 gs, (nrm, grp) ∈ (phase1 artists ([], [])).2 →
      grp = g0 :: g1 :: gs → getName g0 ≠ getName c := by
    intro nrm grp g0 g1 gs hmem3 hshape heq
    have hwfng := (ngFinal_wf artists).2 (nrm, grp) hmem3
    have hgrp : grp = exactGroup artists nrm := hwfng.2
    have hg0mem : g0 ∈ exactGroup artists nrm := by
      rw [← hgrp, hshape]
      exact List.mem_cons.mpr (Or.inl rfl)
    have hn0 : normalize_name (getName g0) = nrm := (mem_exactGroup hg0mem).2
    have h1 : exactGroup artists nrm = g0 :: g1 :: gs := by rw [← hgrp, hshape]
    have h2' : nrm = k := by rw [← hn0, heq, hnc]
    rw [h2', hone] at h1
    injection h1 with _ h3
    exact List.noConfusion h3
  rw [phase3_preserve (getName c) _ d2 d hno3 hfd, hd2]
  apply congrArg
  have hval : ∀ n : Nat, dictGet? inner n = lastRec k n artists :=
    fun n => ndFinal_get artists (k, inner) hmemnd n
  have hinnerNodup : (inner.map Prod.fst).Nodup := (ndFinal_wf artists).2 (k, inner) hmemnd
  have hmemiff : ∀ n, n ∈ inner.map Prod.fst ↔ n ∈ numbersOf artists k := by
    intro n
    rw [numbersOf_mem_iff]
    constructor
    · intro hmemk
      have hsome : (dictGet? inner n).isSome := (dictGet?_isSome_iff inner n).mpr hmemk
      cases hdg : dictGet? inner n with
      | none => rw [hdg] at hsome; simp at hsome
      | some r =>
        rw [hval n] at hdg
        obtain ⟨a, ha, hnum⟩ := lastRec_some k n artists r hdg
        exact ⟨a, ha, r, hnum⟩
    · rintro ⟨a, ha, r, hnum⟩
      have hz := lastRec_isSome k n artists a r ha hnum
      rw [← hval n] at hz
      exact (dictGet?_isSome_iff inner n).mp hz
  have hperm : List.Perm (inner.map Prod.fst) (numbersOf artists k) :=
    (List.perm_ext_iff_of_nodup hinnerNodup hnodupnum).mpr hmemiff
  rw [numberedGroupList, expectedDups, sortNats_eq_of_perm hperm, funext hval]

/-- Witness for C3 at the numbered-cluster instance. -/
theorem brainarr_c3_witness :
    (strL "radiohead" ≠ ([] : Str)) ∧
    exactGroup c3Artists (strL "radiohead") = [mkA 1 "Radiohead"] ∧
    splitNumbered (getName (mkA 1 "Radiohead")) = none ∧
    (numbersOf c3Artists (strL "radiohead")).Nodup ∧
    expectedDups c3Artists (strL "radiohead")
      = [⟨mkA 2 "Radiohead (2)", strL "Radiohead (2)", strL "Radiohead"⟩,
         ⟨mkA 3 "Radiohead (3)", strL "Radiohead (3)", strL "Radiohead"⟩] ∧
    find_duplicates c3Artists
      = some [(strL "Radiohead",
          [⟨mkA 2 "Radiohead (2)", strL "Radiohead (2)", strL "Radiohead"⟩,
           ⟨mkA 3 "Radiohead (3)", strL "Radiohead (3)", strL "Radiohead"⟩])] ∧
    dictGet? [(strL "Radiohead",
        [⟨mkA 2 "Radiohead (2)", strL "Radiohead (2)", strL "Radiohead"⟩,
         ⟨mkA 3 "Radiohead (3)", strL "Radiohead (3)", strL "Radiohead"⟩])]
      (strL "Radiohead") = some (expectedDups c3Artists (strL "radiohead")) :=
  ⟨by decide, by decide, by decide, by decide, by decide, by decide,
    brainarr_c3 c3Artists (strL "radiohead") (mkA 1 "Radiohead") (by decide) (by decide)
      (by decide)
      ⟨mkA 2 "Radiohead (2)", by decide, 2,
        ⟨mkA 2 "Radiohead (2)", strL "Radiohead (2)", strL "Radiohead"⟩, by decide⟩
      (by decide)
      [(strL "Radiohead",
        [⟨mkA 2 "Radiohead (2)", strL "Radiohead (2)", strL "Radiohead"⟩,
         ⟨mkA 3 "Radiohead (3)", strL "Radiohead (3)", strL "Radiohead"⟩])]
      (by decide)⟩

/-- C5 counterexample: with no numbered entries at all, the cluster of the
two entries normalizing to the article-prefixed string is silently dropped,
because that normalized string equals the raw keeper name of a previously
created group, so the membership guard of the exact pass skips it. -/
theorem brainarr_c5_cex :
    (c5cexArtists.all (fun a => (splitNumbered (getName a)).isNone)) = true ∧
    exactGroup c5cexArtists (strL "the x") = [mkA 3 "The The X", mkA 4 "the the x"] ∧
    find_duplicates c5cexArtists
      = some [(strL "the x", [⟨mkA 2 "The X", strL "The X", strL "the x"⟩])] ∧
    dictGet? ((find_duplicates c5cexArtists).getD []) (strL "The The X") = none := by
  refine ⟨by decide, by decide, by decide, by decide⟩

/-- C5 amended: for a group of two or more entries sharing the nonempty
normalized name n, provided no entry matches the numbered pattern and n is a
fixed point of normalize_name, the exact pass stores under the first
member's raw name the remaining members, as records in input order. -/
theorem brainarr_c5 (artists : List Artist) (n : Str) (g0 g1 : Artist) (gs : List Artist)
    (hnum : ∀ a ∈ artists, splitNumbered (getName a) = none)
    (hfix : normalize_name n = n)
    (hne : n ≠ [])
    (hgrp : exactGroup artists n = g0 :: g1 :: gs) :
    ∀ d, find_duplicates artists = some d →
      dictGet? d (getName g0)
        = some ((g1 :: gs).map (fun a => ⟨a, getName a, getName g0⟩)) := by
  intro d hfd
  have hnd : (phase1 artists ([], [])).1 = [] := phase1_nd_id artists ([], []) hnum
  have h2 : phase2 artists (phase1 artists ([], [])).1 [] = some [] := by
    rw [hnd]
    rfl
  rw [find_duplicates_eq _ _ h2] at hfd
  have hwf := ngFinal_wf artists
  have hg0mem : g0 ∈ exactGroup artists n := by
    rw [hgrp]
    exact List.mem_cons.mpr (Or.inl rfl)
  have hkeymem : n ∈ ((phase1 artists ([], [])).2.map Prod.fst) :=
    phase1_ng_mem hne (mem_exactGroup hg0mem).1 (mem_exactGroup hg0mem).2
  cases hgg : dictGet? (phase1 artists ([], [])).2 n with
  | none =>
    have hsome := (dictGet?_isSome_iff _ n).mpr hkeymem
    rw [hgg] at hsome
    simp at hsome
  | some grp' =>
  have hmem3 : (n, grp') ∈ (phase1 artists ([], [])).2 := mem_of_dictGet? hgg
  have hgrp' : grp' = g0 :: g1 :: gs := by
    have h := (hwf.2 (n, grp') hmem3).2
    rw [← hgrp]
    exact h
  rw [hgrp'] at hmem3
  exact phase3_targeted artists _ [] d n g0 g1 gs hwf.1 hwf.2 hmem3 hfix
    (by intro q hq; simp at hq) hfd

/-- Witness for C5 at the exact-duplicate instance. -/
theorem brainarr_c5_witness :
    (∀ a ∈ c5Artists, splitNumbered (getName a) = none) ∧
    normalize_name (strL "pink floyd") = strL "pink floyd" ∧
    exactGroup c5Artists (strL "pink floyd")
      = [mkA 1 "Pink Floyd", mkA 2 "pink floyd", mkA 3 "Pink  Floyd"] ∧
    find_duplicates c5Artists
      = some [(strL "Pink Floyd",
          [⟨mkA 2 "pink floyd", strL "pink floyd", strL "Pink Floyd"⟩,
           ⟨mkA 3 "Pink  Floyd", strL "Pink  Floyd", strL "Pink Floyd"⟩])] ∧
    dictGet? [(strL "Pink Floyd",
        [⟨mkA 2 "pink floyd", strL "pink floyd", strL "Pink Floyd"⟩,
         ⟨mkA 3 "Pink  Floyd", strL "Pink  Floyd", strL "Pink Floyd"⟩])]
      (strL "Pink Floyd")
      = some ([mkA 2 "pink floyd", mkA 3 "Pink  Floyd"].map
          (fun a => (⟨a, getName a, getName (mkA 1 "Pink Floyd")⟩ : DupRec))) :=
  ⟨by decide, by decide, by decide, by decide,
    brainarr_c5 c5Artists (strL "pink floyd") (mkA 1 "Pink Floyd") (mkA 2 "pink floyd")
      [mkA 3 "Pink  Floyd"] (by decide) (by decide) (by decide) (by decide)
      [(strL "Pink Floyd",
        [⟨mkA 2 "pink floyd", strL "pink floyd", strL "Pink Floyd"⟩,
         ⟨mkA 3 "Pink  Floyd", strL "Pink  Floyd", strL "Pink Floyd"⟩])]
      (by decide)⟩

theorem assoc_eq_of_mem_nodup {α β : Type} [DecidableEq α] {d : List (α × β)}
    (hn : (d.map Prod.fst).Nodup) {k : α} {v v' : β}
    (h1 : (k, v) ∈ d) (h2 : (k, v') ∈ d) : v = v' := by
  have e1 := dictGet?_of_mem_nodup hn h1
  have e2 := dictGet?_of_mem_nodup hn h2
  rw [e1] at e2
  exact Option.some.inj e2

theorem mixed_case_contra {artists : List Artist}
    (hpat : artists.Pairwise (fun a b =>
      normalize_name (getName a) = normalize_name (getName b) →
        splitNumbered (getName a) = none ∧ splitNumbered (getName b) = none))
    {nrm : Str} {g0 g1 : Artist} {gs : List Artist} {a : Artist}
    (hgrp : exactGroup artists nrm = g0 :: g1 :: gs)
    (hmem : a ∈ g1 :: gs)
    (hsplit : splitNumbered (getName a) ≠ none) : False := by
  have hsub : List.Sublist (exactGroup artists nrm) artists := List.filter_sublist _
  have hpair := List.Pairwise.sublist hsub hpat
  rw [hgrp, List.pairwise_cons] at hpair
  have hR := hpair.1 a hmem
  have hg0m : g0 ∈ exactGroup artists nrm := by
    rw [hgrp]
    exact List.mem_cons.mpr (Or.inl rfl)
  have ham : a ∈ exactGroup artists nrm := by
    rw [hgrp]
    exact List.mem_cons.mpr (Or.inr hmem)
  have hnormeq : normalize_name (getName g0) = normalize_name (getName a) := by
    rw [(mem_exactGroup hg0m).2, (mem_exactGroup ham).2]
  exact hsplit (hR hnormeq).2

/-- C1 counterexample: on the four-entry input combining a numbered cluster
with an exact-normalized-name cluster over a numbered variant, entry id 4
appears in the duplicate lists of two distinct groups of the returned
mapping. -/
theorem brainarr_c1_cex :
    find_duplicates c1cexArtists
      = some [(strL "Radiohead",
          [⟨mkA 2 "Radiohead (2)", strL "Radiohead (2)", strL "Radiohead"⟩,
           ⟨mkA 4 "radiohead  (3)", strL "radiohead  (3)", strL "radiohead"⟩]),
         (strL "Radiohead (3)",
          [⟨mkA 4 "radiohead  (3)", strL "radiohead  (3)", strL "Radiohead (3)"⟩])] ∧
    ((dictGet? ((find_duplicates c1cexArtists).getD []) (strL "Radiohead")).getD []).any
      (fun r => r.artist.id == some 4) = true ∧
    ((dictGet? ((find_duplicates c1cexArtists).getD []) (strL "Radiohead (3)")).getD []).any
      (fun r => r.artist.id == some 4) = true := by
  refine ⟨by decide, by decide, by decide⟩

/-- C1 amended: provided the entries' ids are pairwise distinct and no entry
matching the numbered-suffix pattern shares its normalized name with another
entry, no entry id appears in the duplicate lists of two distinct groups of
the mapping find_duplicates returns. -/
theorem brainarr_c1 (artists : List Artist)
    (hid : (artists.filterMap Artist.id).Nodup)
    (hpat : artists.Pairwise (fun a b =>
      normalize_name (getName a) = normalize_name (getName b) →
        splitNumbered (getName a) = none ∧ splitNumbered (getName b) = none)) :
    ∀ d, find_duplicates artists = some d →
      ∀ p ∈ d, ∀ q ∈ d, p.1 ≠ q.1 → ∀ r ∈ p.2, ∀ s ∈ q.2,
        ∀ i : Nat, r.artist.id = some i → s.artist.id ≠ some i := by
  intro d hfd p hp q hq hne r hr s hs i hri hsi
  cases h2 : phase2 artists (phase1 artists ([], [])).1 [] with
  | none =>
    rw [find_duplicates_err _ h2] at hfd
    cases hfd
  | some d2 =>
  rw [find_duplicates_eq _ _ h2] at hfd
  have hclass : ∀ p' ∈ d,
      (∃ k inner c cs, (k, inner) ∈ (phase1 artists ([], [])).1 ∧
        originalCandidates artists k = c :: cs ∧ c.artistName = some p'.1 ∧
        p'.2 = numberedGroupList inner) ∨
      (∃ nrm grp g0 g1 gs, (nrm, grp) ∈ (phase1 artists ([], [])).2 ∧
        grp = g0 :: g1 :: gs ∧ p'.1 = getName g0 ∧
        p'.2 = (g1 :: gs).map (fun a => ⟨a, getName a, getName g0⟩)) := by
    intro p' hp'
    rcases phase3_mem _ d2 d hfd p' hp' with hin2 | h3src
    · rcases phase2_mem artists _ [] d2 h2 p' hin2 with hin0 | h2src
      · simp at hin0
      · exact Or.inl h2src
    · exact Or.inr h3src
  rcases hclass p hp with ⟨k, inner, c, cs, hmemnd, hcand, hart, hlist⟩ |
      ⟨nrm, grp, g0, g1, gs, hmemng, hshape, hkey, hlist⟩
  · -- p from the numbered pass
    rw [hlist] at hr
    obtain ⟨m, hget⟩ := mem_numberedGroupList hr
    obtain ⟨a, ha, hnum⟩ := ndFinal_rec artists (k, inner) hmemnd (m, r) (mem_of_dictGet? hget)
    obtain ⟨hartr0, _, g1r, hsplitr0, hnormr0, _⟩ := numRec?_inv hnum
    have hartr : r.artist = a := hartr0
    have hsplitr : splitNumbered (getName a) = some (g1r, m) := hsplitr0
    have hnormr : normalize_name (pyStrip g1r) = k := hnormr0
    have haid : a.id = some i := by rw [← hartr]; exact hri
    rcases hclass q hq with ⟨k', inner', c', cs', hmemnd', hcand', hart', hlist'⟩ |
        ⟨nrm', grp', g0', g1', gs', hmemng', hshape', hkey', hlist'⟩
    · -- q also from the numbered pass
      rw [hlist'] at hs
      obtain ⟨m', hget'⟩ := mem_numberedGroupList hs
      obtain ⟨a', ha', hnum'⟩ :=
        ndFinal_rec artists (k', inner') hmemnd' (m', s) (mem_of_dictGet? hget')
      obtain ⟨harts0, _, g1s, hsplits0, hnorms0, _⟩ := numRec?_inv hnum'
      have harts : s.artist = a' := harts0
      have hsplits : splitNumbered (getName a') = some (g1s, m') := hsplits0
      have hnorms : normalize_name (pyStrip g1s) = k' := hnorms0
      have ha'id : a'.id = some i := by rw [← harts]; exact hsi
      by_cases hkk : k = k'
      · subst hkk
        rw [hcand] at hcand'
        injection hcand' with hc _
        apply hne
        have hsome : some p.1 = some q.1 := by rw [← hart, hc, hart']
        exact Option.some.inj hsome
      · have heqa := id_inj hid a ha a' ha' i haid ha'id
        subst heqa
        rw [hsplitr] at hsplits
        injection hsplits with hsplits
        apply hkk
        rw [← hnormr, ← hnorms]
        injection hsplits with hg _
        rw [hg]
    · -- q from the exact pass
      rw [hlist'] at hs
      obtain ⟨a', hmema', hreq'⟩ := List.mem_map.mp hs
      have harts : s.artist = a' := by rw [← hreq']
      have hgrpx' : grp' = exactGroup artists nrm' :=
        ((ngFinal_wf artists).2 (nrm', grp') hmemng').2
      have hgrpeq' : exactGroup artists nrm' = g0' :: g1' :: gs' := by
        rw [← hgrpx', hshape']
      have hmemg' : a' ∈ exactGroup artists nrm' := by
        rw [hgrpeq']
        exact List.mem_cons.mpr (Or.inr hmema')
      have ha'in : a' ∈ artists := (mem_exactGroup hmemg').1
      have ha'id : a'.id = some i := by rw [← harts]; exact hsi
      have heqa := id_inj hid a ha a' ha'in i haid ha'id
      subst heqa
      exact mixed_case_contra hpat hgrpeq' hmema' (by rw [hsplitr]; simp)
  · -- p from the exact pass
    rw [hlist] at hr
    obtain ⟨a, hmema, hreq⟩ := List.mem_map.mp hr
    have hartr : r.artist = a := by rw [← hreq]
    have hgrpx : grp = exactGroup artists nrm :=
      ((ngFinal_wf artists).2 (nrm, grp) hmemng).2
    have hgrpeq : exactGroup artists nrm = g0 :: g1 :: gs := by
      rw [← hgrpx, hshape]
    have hmemg : a ∈ exactGroup artists nrm := by
      rw [hgrpeq]
      exact List.mem_cons.mpr (Or.inr hmema)
    have hain : a ∈ artists := (mem_exactGroup hmemg).1
    have hnorma : normalize_name (getName a) = nrm := (mem_exactGroup hmemg).2
    have haid : a.id = some i := by rw [← hartr]; exact hri
    rcases hclass q hq with ⟨k', inner', c', cs', hmemnd', hcand', hart', hlist'⟩ |
        ⟨nrm', grp', g0', g1', gs', hmemng', hshape', hkey', hlist'⟩
    · -- q from the numbered pass
      rw [hlist'] at hs
      obtain ⟨m', hget'⟩ := mem_numberedGroupList hs
      obtain ⟨a', ha', hnum'⟩ :=
        ndFinal_rec artists (k', inner') hmemnd' (m', s) (mem_of_dictGet? hget')
      obtain ⟨harts0, _, g1s, hsplits0, hnorms0, _⟩ := numRec?_inv hnum'
      have harts : s.artist = a' := harts0
      have hsplits : splitNumbered (getName a') = some (g1s, m') := hsplits0
      have ha'id : a'.id = some i := by rw [← harts]; exact hsi
      have heqa := id_inj hid a hain a' ha' i haid ha'id
      subst heqa
      exact mixed_case_contra hpat hgrpeq hmema (by rw [hsplits]; simp)
    · -- q also from the exact pass
      rw [hlist'] at hs
      obtain ⟨a', hmema', hreq'⟩ := List.mem_map.mp hs
      have harts : s.artist = a' := by rw [← hreq']
      have hgrpx' : grp' = exactGroup artists nrm' :=
        ((ngFinal_wf artists).2 (nrm', grp') hmemng').2
      have hgrpeq' : exactGroup artists nrm' = g0' :: g1' :: gs' := by
        rw [← hgrpx', hshape']
      have hmemg' : a' ∈ exactGroup artists nrm' := by
        rw [hgrpeq']
        exact List.mem_cons.mpr (Or.inr hmema')
      have ha'in : a' ∈ artists := (mem_exactGroup hmemg').1
      have hnorma' : normalize_name (getName a') = nrm' := (mem_exactGroup hmemg').2
      have ha'id : a'.id = some i := by rw [← harts]; exact hsi
      by_cases hnn : nrm = nrm'
      · subst hnn
        have hgeq : grp = grp' :=
          assoc_eq_of_mem_nodup (ngFinal_wf artists).1 hmemng hmemng'
        apply hne
        rw [hkey, hkey']
        have hcc : g0 :: g1 :: gs = g0' :: g1' :: gs' := by
          rw [← hshape, hgeq, hshape']
        injection hcc with h0 _
        rw [h0]
      · have heqa := id_inj hid a hain a' ha'in i haid ha'id
        subst heqa
        exact hnn (hnorma.symm.trans hnorma')

/-- Witness for C1 at an input combining a numbered cluster and an exact
cluster. -/
theorem brainarr_c1_witness :
    (c1wArtists.filterMap Artist.id).Nodup ∧
    c1wArtists.Pairwise (fun a b =>
      normalize_name (getName a) = normalize_name (getName b) →
        splitNumbered (getName a) = none ∧ splitNumbered (getName b) = none) ∧
    find_duplicates c1wArtists
      = some [(strL "Radiohead",
          [⟨mkA 2 "Radiohead (2)", strL "Radiohead (2)", strL "Radiohead"⟩]),
         (strL "Pink Floyd",
          [⟨mkA 4 "pink floyd", strL "pink floyd", strL "Pink Floyd"⟩])] ∧
    (⟨mkA 4 "pink floyd", strL "pink floyd", strL "Pink Floyd"⟩ : DupRec).artist.id
      ≠ some 2 :=
  ⟨by decide, by decide, by decide,
    brainarr_c1 c1wArtists (by decide) (by decide)
      [(strL "Radiohead",
        [⟨mkA 2 "Radiohead (2)", strL "Radiohead (2)", strL "Radiohead"⟩]),
       (strL "Pink Floyd",
        [⟨mkA 4 "pink floyd", strL "pink floyd", strL "Pink Floyd"⟩])]
      (by decide)
      (strL "Radiohead", [⟨mkA 2 "Radiohead (2)", strL "Radiohead (2)", strL "Radiohead"⟩])
      (by decide)
      (strL "Pink Floyd", [⟨mkA 4 "pink floyd", strL "pink floyd", strL "Pink Floyd"⟩])
      (by decide) (by decide)
      ⟨mkA 2 "Radiohead (2)", strL "Radiohead (2)", strL "Radiohead"⟩ (by decide)
      ⟨mkA 4 "pink floyd", strL "pink floyd", strL "Pink Floyd"⟩ (by decide)
      2 (by decide)⟩

/-! Lemmas about normalize_name for the idempotence claim. -/

theorem toNat_ofNat_small {n : Nat} (h : n < 55296) : (Char.ofNat n).toNat = n := by
  have hv : n.isValidChar := Or.inl h
  rw [Char.ofNat, dif_pos hv]
  rfl

theorem lowerChar_idem (c : Char) : lowerChar (lowerChar c) = lowerChar c := by
  by_cases h : (65 ≤ c.toNat && c.toNat ≤ 90) = true
  · have h' : 65 ≤ c.toNat ∧ c.toNat ≤ 90 := by simpa using h
    have hin : lowerChar c = Char.ofNat (c.toNat + 32) := by
      rw [lowerChar, if_pos h]
    have ht : (Char.ofNat (c.toNat + 32)).toNat = c.toNat + 32 :=
      toNat_ofNat_small (by omega)
    have hneg : ¬((65 ≤ (Char.ofNat (c.toNat + 32)).toNat &&
        (Char.ofNat (c.toNat + 32)).toNat ≤ 90) = true) := by
      rw [ht]
      simp only [Bool.and_eq_true, decide_eq_true_eq, not_and]
      intro _
      omega
    rw [hin, lowerChar, if_neg hneg]
  · have hfix : lowerChar c = c := by rw [lowerChar, if_neg h]
    rw [hfix]
    exact hfix

theorem lowerChar_space : lowerChar (Char.ofNat 32) = Char.ofNat 32 := by decide

theorem map_id_of_fixed {f : Char → Char} :
    ∀ s : Str, (∀ c ∈ s, f c = c) → s.map f = s := by
  intro s
  induction s with
  | nil => intro _; rfl
  | cons c cs ih =>
    intro h
    rw [List.map_cons, h c (List.mem_cons.mpr (Or.inl rfl)),
      ih (fun d hd => h d (List.mem_cons.mpr (Or.inr hd)))]

theorem filter_id_of_true {p : Char → Bool} :
    ∀ s : Str, (∀ c ∈ s, p c = true) → s.filter p = s := by
  intro s h
  exact List.filter_eq_self.mpr h

theorem mem_pyStrip {s : Str} {c : Char} (h : c ∈ pyStrip s) : c ∈ s := by
  rw [pyStrip] at h
  rw [List.mem_reverse] at h
  have h2 := (List.dropWhile_sublist pyIsSpace).subset h
  rw [List.mem_reverse] at h2
  exact (List.dropWhile_sublist pyIsSpace).subset h2

theorem mem_collapseWsAux {c : Char} :
    ∀ (b : Bool) (s : Str), c ∈ collapseWsAux b s → c = Char.ofNat 32 ∨ c ∈ s := by
  intro b s
  induction s generalizing b with
  | nil => intro h; simp [collapseWsAux] at h
  | cons d ds ih =>
    intro h
    rw [collapseWsAux] at h
    by_cases hsp : pyIsSpace d
    · rw [if_pos hsp] at h
      by_cases hb : b
      · rw [if_pos hb] at h
        rcases ih true h with he | hm
        · exact Or.inl he
        · exact Or.inr (List.mem_cons.mpr (Or.inr hm))
      · rw [if_neg hb] at h
        rcases List.mem_cons.mp h with he | hm
        · exact Or.inl he
        · rcases ih true hm with he | hm'
          · exact Or.inl he
          · exact Or.inr (List.mem_cons.mpr (Or.inr hm'))
    · rw [if_neg hsp] at h
      rcases List.mem_cons.mp h with he | hm
      · exact Or.inr (List.mem_cons.mpr (Or.inl he))
      · rcases ih false hm with he | hm'
        · exact Or.inl he
        · exact Or.inr (List.mem_cons.mpr (Or.inr hm'))

theorem mem_removeThe {s : Str} {c : Char} (h : c ∈ removeThe s) : c ∈ s := by
  rw [removeThe] at h
  split at h
  · exact List.mem_of_mem_drop h
  · exact h

theorem normalize_lowerFixed (x : Str) : ∀ c ∈ normalize_name x, lowerChar c = c := by
  intro c hc
  rw [normalize_name] at hc
  split at hc
  · simp at hc
  · have h1 := mem_removeThe hc
    rcases mem_collapseWsAux false _ h1 with he | h2
    · rw [he]
      exact lowerChar_space
    · have h3 := List.mem_of_mem_filter h2
      have h4 := mem_pyStrip h3
      rw [pyLower] at h4
      obtain ⟨c0, _, he⟩ := List.mem_map.mp h4
      rw [← he]
      exact lowerChar_idem c0

theorem normalize_quoteFree (x : Str) : ∀ c ∈ normalize_name x, (!isQuoteChar c) = true := by
  intro c hc
  rw [normalize_name] at hc
  split at hc
  · simp at hc
  · have h1 := mem_removeThe hc
    rcases mem_collapseWsAux false _ h1 with he | h2
    · rw [he]
      decide
    · rw [removeQuotes] at h2
      exact (List.mem_filter.mp h2).2

theorem collapsedB_tail {c : Char} {cs : Str} (h : collapsedB (c :: cs) = true) :
    collapsedB cs = true := by
  rw [collapsedB, Bool.and_eq_true] at h
  exact h.2

theorem collapsedB_drop :
    ∀ (s : Str) (n : Nat), collapsedB s = true → collapsedB (s.drop n) = true := by
  intro s
  induction s with
  | nil =>
    intro n h
    rw [List.drop_nil]
    exact h
  | cons c cs ih =>
    intro n h
    cases n with
    | zero => exact h
    | succ m =>
      rw [List.drop_succ_cons]
      exact ih m (collapsedB_tail h)

theorem collapseWsAux_collapsed :
    ∀ s : Str, collapsedB (collapseWsAux false s) = true ∧
      collapsedB (collapseWsAux true s) = true ∧
      headIsSpace (collapseWsAux true s) = false := by
  intro s
  induction s with
  | nil => exact ⟨rfl, rfl, rfl⟩
  | cons c cs ih =>
    obtain ⟨ih1, ih2, ih3⟩ := ih
    have h32 : pyIsSpace (Char.ofNat 32) = true := by decide
    cases hsp : pyIsSpace c with
    | true =>
      have e1 : collapseWsAux false (c :: cs) = Char.ofNat 32 :: collapseWsAux true cs := by
        simp [collapseWsAux, hsp]
      have e2 : collapseWsAux true (c :: cs) = collapseWsAux true cs := by
        simp [collapseWsAux, hsp]
      refine ⟨?_, ?_, ?_⟩
      · rw [e1, collapsedB]
        simp [h32, ih2, ih3]
      · rw [e2]
        exact ih2
      · rw [e2]
        exact ih3
    | false =>
      have e1 : collapseWsAux false (c :: cs) = c :: collapseWsAux false cs := by
        simp [collapseWsAux, hsp]
      have e2 : collapseWsAux true (c :: cs) = c :: collapseWsAux false cs := by
        simp [collapseWsAux, hsp]
      refine ⟨?_, ?_, ?_⟩
      · rw [e1, collapsedB]
        simp [hsp, ih1]
      · rw [e2, collapsedB]
        simp [hsp, ih1]
      · rw [e2, headIsSpace]
        exact hsp

theorem collapseWsAux_fixed :
    ∀ s : Str, collapsedB s = true →
      collapseWsAux false s = s ∧ (headIsSpace s = false → collapseWsAux true s = s) := by
  intro s
  induction s with
  | nil => exact fun _ => ⟨rfl, fun _ => rfl⟩
  | cons c cs ih =>
    intro h
    have htail : collapsedB cs = true := collapsedB_tail h
    rw [collapsedB, Bool.and_eq_true] at h
    cases hsp : pyIsSpace c with
    | true =>
      have h1 := h.1
      rw [hsp] at h1
      simp only [Bool.not_true, Bool.false_or, Bool.and_eq_true, decide_eq_true_eq,
        Bool.not_eq_true'] at h1
      obtain ⟨hc32, hhd⟩ := h1
      subst hc32
      constructor
      · have ht := (ih htail).2 hhd
        simp [collapseWsAux, hsp, ht]
      · intro hh
        rw [headIsSpace, hsp] at hh
        cases hh
    | false =>
      constructor
      · simp [collapseWsAux, hsp, (ih htail).1]
      · intro _
        simp [collapseWsAux, hsp, (ih htail).1]

theorem normalize_collapsed (x : Str) : collapsedB (normalize_name x) = true := by
  rw [normalize_name]
  split
  · rfl
  · rw [removeThe]
    split
    · exact collapsedB_drop _ 4 (collapseWsAux_collapsed _).1
    · exact (collapseWsAux_collapsed _).1

theorem collapseWs_normalize (x : Str) : collapseWs (normalize_name x) = normalize_name x :=
  (collapseWsAux_fixed _ (normalize_collapsed x)).1

/-- C6 counterexample: normalize_name is not idempotent — a second pass
strips a further article prefix. -/
theorem brainarr_c6_cex :
    normalize_name (normalize_name (strL "the the x")) ≠ normalize_name (strL "the the x") := by
  decide

/-- C6 amended: normalize_name is idempotent on every input whose normalized
form has no leading or trailing whitespace and does not begin with the
lowercase article followed by a space. -/
theorem brainarr_c6 (x : Str)
    (h1 : pyStrip (normalize_name x) = normalize_name x)
    (h2 : (normalize_name x).take 4 ≠ strL "the ") :
    normalize_name (normalize_name x) = normalize_name x := by
  by_cases hy : normalize_name x = []
  · rw [hy]
    exact normalize_nil
  · have hlf := normalize_lowerFixed x
    have hqf := normalize_quoteFree x
    have hcol := collapseWs_normalize x
    generalize hgen : normalize_name x = y at h1 h2 hy hlf hqf hcol ⊢
    have hpl : pyLower y = y := map_id_of_fixed y hlf
    have hrq : removeQuotes y = y := filter_id_of_true y hqf
    rw [normalize_name, if_neg hy, hpl, h1, hrq, hcol, removeThe, if_neg h2]

/-- Witness for C6 at a concrete input. -/
theorem brainarr_c6_witness :
    pyStrip (normalize_name (strL "The Beatles")) = normalize_name (strL "The Beatles") ∧
    (normalize_name (strL "The Beatles")).take 4 ≠ strL "the " ∧
    normalize_name (normalize_name (strL "The Beatles")) = normalize_name (strL "The Beatles") :=
  ⟨by decide, by decide, brainarr_c6 (strL "The Beatles") (by decide) (by decide)⟩
